import Mathlib

/-!
Verification of the Flux Atlas graph-construction and layout-synthesis pipeline
(`backend/src/services/atlasBuilder.ts` and `backend/src/utils/net.ts`).

JavaScript `number` values reaching the pipeline are integers and exact small
fractions, so they are modelled by `ℚ`.  The arithmetic wrappers `jsAdd`,
`jsSub`, `jsMul`, `jsDiv` below are kernel-computable implementations of the
rational field operations (proved equal to `+`, `-`, `*`, `/`); they are used
inside the embedded pipeline so that concrete runs can be evaluated by `decide`.

JavaScript `Map` (insertion-ordered; `set` keeps the original slot of an
existing key) is modelled by an association list `JMap`; JavaScript `Set` by an
insertion-ordered duplicate-free list `JSet`.
-/

namespace FluxAtlas

/-- Kernel-computable rational addition (JS `a + b`). -/
def jsAdd (a b : ℚ) : ℚ := Rat.divInt (a.num * b.den + b.num * a.den) (a.den * b.den)

/-- Kernel-computable rational subtraction (JS `a - b`). -/
def jsSub (a b : ℚ) : ℚ := Rat.divInt (a.num * b.den - b.num * a.den) (a.den * b.den)

/-- Kernel-computable rational multiplication (JS `a * b`). -/
def jsMul (a b : ℚ) : ℚ := Rat.divInt (a.num * b.num) (a.den * b.den)

/-- Kernel-computable rational division (JS `a / b`; division by zero yields 0,
which the source never relies on). -/
def jsDiv (a b : ℚ) : ℚ := Rat.divInt (a.num * b.den) (a.den * b.num)

/-- JS `Math.max` on two numbers. -/
def jsMax (a b : ℚ) : ℚ := if a ≤ b then b else a

/-- JS `Math.min` on two numbers. -/
def jsMin (a b : ℚ) : ℚ := if a ≤ b then a else b

theorem den_cast_ne (a : ℚ) : ((a.den : ℚ)) ≠ 0 := by
  exact_mod_cast a.den_nz

theorem num_cast_eq (a : ℚ) : (a.num : ℚ) = a * a.den := by
  calc (a.num : ℚ) = (a.num / a.den) * a.den := by
        rw [div_mul_cancel₀ _ (den_cast_ne a)]
    _ = a * a.den := by rw [Rat.num_div_den a]

theorem jsAdd_eq (a b : ℚ) : jsAdd a b = a + b := by
  rw [jsAdd, Rat.divInt_eq_div]
  push_cast
  field_simp
  rw [num_cast_eq, num_cast_eq]
  ring

theorem jsSub_eq (a b : ℚ) : jsSub a b = a - b := by
  rw [jsSub, Rat.divInt_eq_div]
  push_cast
  field_simp
  rw [num_cast_eq, num_cast_eq]
  ring

theorem jsMul_eq (a b : ℚ) : jsMul a b = a * b := by
  rw [jsMul, Rat.divInt_eq_div]
  push_cast
  field_simp
  rw [num_cast_eq, num_cast_eq]
  ring

theorem jsDiv_eq (a b : ℚ) : jsDiv a b = a / b := by
  rcases eq_or_ne b 0 with hb | hb
  · subst hb
    simp [jsDiv, Rat.divInt_eq_div]
  · have hbn : (b.num : ℚ) ≠ 0 := by
      exact_mod_cast Rat.num_ne_zero.mpr hb
    rw [jsDiv, Rat.divInt_eq_div]
    push_cast
    field_simp
    rw [num_cast_eq, num_cast_eq]
    ring

/-! ### JS `Map` and `Set` models -/

/-- A JS `Map` with string keys: insertion-ordered association list. -/
abbrev JMap (α : Type) := List (String × α)

/-- `map.get(k)` (`none` models `undefined`). -/
def jget {α : Type} : JMap α → String → Option α
  | [], _ => none
  | p :: ps, k => if p.1 = k then some p.2 else jget ps k

/-- `map.has(k)`. -/
def jhas {α : Type} : JMap α → String → Bool
  | [], _ => false
  | p :: ps, k => p.1 == k || jhas ps k

/-- Replace the value stored under `k` (every slot holding `k`), keeping positions. -/
def jreplace {α : Type} : JMap α → String → α → JMap α
  | [], _, _ => []
  | p :: ps, k, v => (if p.1 = k then (k, v) else p) :: jreplace ps k v

/-- `map.set(k, v)`: replaces in place if the key exists, else appends. -/
def jset {α : Type} (m : JMap α) (k : String) (v : α) : JMap α :=
  if jhas m k then jreplace m k v else m ++ [(k, v)]

/-- `map.delete(k)`. -/
def jdelete {α : Type} (m : JMap α) (k : String) : JMap α :=
  m.filter (fun p => p.1 != k)

/-- `Array.from(map.values())`. -/
def jvalues {α : Type} (m : JMap α) : List α := m.map (·.2)

/-- `Array.from(map.keys())`. -/
def jkeys {α : Type} (m : JMap α) : List String := m.map (·.1)

/-- `map.size` (equals the entry count; keys are kept duplicate-free). -/
def jsize {α : Type} (m : JMap α) : Nat := m.length

/-- A JS `Set` of strings: insertion-ordered duplicate-free list. -/
abbrev JSet := List String

/-- `set.add(k)`. -/
def sadd (s : JSet) (k : String) : JSet := if s.contains k then s else s ++ [k]

/-- `set.delete(k)`. -/
def sdelete (s : JSet) (k : String) : JSet := s.filter (fun x => x != k)

/-! ### Basic JMap / JSet lemmas -/

theorem jget_append {α : Type} (m₁ m₂ : JMap α) (k : String) :
    jget (m₁ ++ m₂) k = ((jget m₁ k).or (jget m₂ k)) := by
  induction m₁ with
  | nil => simp [jget]
  | cons p ps ih =>
    by_cases h : p.1 = k <;> simp [jget, h, ih]

theorem jget_jreplace_self {α : Type} (m : JMap α) (k : String) (v : α)
    (h : jhas m k = true) : jget (jreplace m k v) k = some v := by
  induction m with
  | nil => simp [jhas] at h
  | cons p ps ih =>
    by_cases hp : p.1 = k
    · simp [jreplace, jget, hp]
    · have h' : jhas ps k = true := by
        simpa [jhas, hp] using h
      simp [jreplace, jget, hp, ih h']

theorem jget_jreplace_ne {α : Type} (m : JMap α) (k k' : String) (v : α)
    (h : k' ≠ k) : jget (jreplace m k v) k' = jget m k' := by
  induction m with
  | nil => simp [jreplace]
  | cons p ps ih =>
    by_cases hp : p.1 = k
    · rw [jreplace, if_pos hp]
      have hk : ¬ ((k, v).1 = k') := fun hh => h hh.symm
      rw [jget, if_neg hk, jget, if_neg (hp ▸ fun hh => h hh.symm), ih]
    · rw [jreplace, if_neg hp]
      by_cases hp' : p.1 = k'
      · rw [jget, if_pos hp', jget, if_pos hp']
      · rw [jget, if_neg hp', jget, if_neg hp', ih]

theorem jhas_false_jget {α : Type} (m : JMap α) (k : String)
    (h : jhas m k = false) : jget m k = none := by
  induction m with
  | nil => simp [jget]
  | cons p ps ih =>
    rw [jhas] at h
    rcases Bool.or_eq_false_iff.mp h with ⟨h1, h2⟩
    have hp : p.1 ≠ k := by
      simpa using h1
    simp [jget, hp, ih h2]

theorem jget_jset_self {α : Type} (m : JMap α) (k : String) (v : α) :
    jget (jset m k v) k = some v := by
  rw [jset]
  by_cases h : jhas m k
  · rw [if_pos h]
    exact jget_jreplace_self m k v h
  · rw [if_neg h]
    rw [jget_append, jhas_false_jget m k (by simpa using h)]
    simp [jget]

theorem jget_jset_ne {α : Type} (m : JMap α) (k k' : String) (v : α) (h : k' ≠ k) :
    jget (jset m k v) k' = jget m k' := by
  rw [jset]
  by_cases hh : jhas m k
  · rw [if_pos hh]
    exact jget_jreplace_ne m k k' v h
  · rw [if_neg hh, jget_append]
    have h1 : jget [(k, v)] k' = none := by
      have hk : ¬ ((k, v).1 = k') := fun hh' => h hh'.symm
      rw [jget, if_neg hk, jget]
    rw [h1]
    cases jget m k' <;> rfl

theorem jreplace_not_has {α : Type} (m : JMap α) (k : String) (v : α)
    (h : jhas m k = false) : jreplace m k v = m := by
  induction m with
  | nil => rfl
  | cons q qs ih =>
    rw [jhas] at h
    rcases Bool.or_eq_false_iff.mp h with ⟨h1, h2⟩
    have hq : q.1 ≠ k := by simpa using h1
    rw [jreplace, if_neg hq, ih h2]

theorem jkeys_jreplace {α : Type} (m : JMap α) (k : String) (v : α) :
    jkeys (jreplace m k v) = jkeys m := by
  induction m with
  | nil => rfl
  | cons q qs ih =>
    by_cases hq : q.1 = k
    · simp only [jreplace, if_pos hq, jkeys, List.map_cons]
      rw [hq]
      exact congrArg (k :: ·) (by simpa [jkeys] using ih)
    · simp only [jreplace, if_neg hq, jkeys, List.map_cons]
      simpa [jkeys] using ih

theorem jkeys_jset {α : Type} (m : JMap α) (k : String) (v : α)
    (h : jhas m k = true) : jkeys (jset m k v) = jkeys m := by
  rw [jset, if_pos h]
  exact jkeys_jreplace m k v

/-! ### String helpers (kernel-computable reimplementations of the string
operations the source uses; Lean's built-in `String.splitOn`, `trim`, … are
iterator-based and do not reduce inside the kernel). -/

/-- `/^\d+$/.test s`: nonempty and all decimal digits. -/
def isAllDigits (cs : List Char) : Bool := !cs.isEmpty && cs.all Char.isDigit

/-- JS `Number(s)` for an all-digits string. -/
def digitsToNat (cs : List Char) : Nat :=
  cs.foldl (fun acc c => acc * 10 + (c.toNat - 48)) 0

/-- JS `value.split(sep)` for a single-character separator. -/
def splitOnChar (c : Char) : List Char → List (List Char)
  | [] => [[]]
  | x :: xs =>
    match splitOnChar c xs with
    | [] => [[]]
    | g :: gs => if x = c then [] :: g :: gs else (x :: g) :: gs

/-- `parts.join(sep)` for a single-character separator. -/
def joinSep (c : Char) : List (List Char) → List Char
  | [] => []
  | [g] => g
  | g :: gs => g ++ c :: joinSep c gs

/-- JS whitespace test used by `String.prototype.trim` (the characters that can
occur in node addresses). -/
def isJsSpace (c : Char) : Bool :=
  c = ' ' || c = '\t' || c = '\n' || c = '\r'

/-- JS `value.trim()`. -/
def jsTrim (s : String) : String :=
  String.mk (((s.data.dropWhile isJsSpace).reverse.dropWhile isJsSpace).reverse)

/-! ### `backend/src/utils/net.ts` -/

/-- Result type of `splitHostPort`. -/
structure HostPort where
  host : String
  port : Option Nat
  deriving DecidableEq, Repr

/-- Validity of the tail after the closing bracket in the IPv6 regex
`/^\[(.+)](?::(\d+))?$/`: either nothing, or `:` followed by digits. -/
def bracketTail : List Char → Option (Option Nat)
  | [] => some none
  | ':' :: ds => if isAllDigits ds then some (some (digitsToNat ds)) else none
  | _ => none

/-- Greedy match of `/^\[(.+)](?::(\d+))?$/` applied to the characters after
the opening bracket: the regex backtracks from the longest possible host, so we
look for the largest index of `]` with a nonempty host and a valid tail. -/
def bracketSplit (body : List Char) : Option (String × Option Nat) :=
  (List.range body.length).reverse.findSome? (fun i =>
    if body.getD i ' ' = ']' && decide (1 ≤ i) then
      match bracketTail (body.drop (i + 1)) with
      | some p => some (String.mk (body.take i), p)
      | none => none
    else none)

/-- The `value.split(":")` branch of `splitHostPort` (lines 21–34 of net.ts). -/
def colonSplit (value : String) : HostPort :=
  let parts := splitOnChar ':' value.data
  if parts.length = 1 then { host := value, port := none }
  else
    let maybePort := parts.getLastD []
    if isAllDigits maybePort then
      { host := String.mk (joinSep ':' parts.dropLast), port := some (digitsToNat maybePort) }
    else { host := value, port := none }

/-- `splitHostPort` (net.ts lines 9–35). -/
def splitHostPort (value : String) : HostPort :=
  if value = "" then { host := value, port := none }
  else if value.data.head? = some '[' then
    match bracketSplit (value.data.drop 1) with
    | some (h, p) => { host := h, port := p }
    | none => colonSplit value
  else colonSplit value

/-- `normalizeIp` (net.ts lines 37–51). -/
def normalizeIp (value : String) : String :=
  if value = "" then value
  else
    let trimmed := jsTrim value
    if trimmed.data.head? = some '[' && trimmed.data.getLast? = some ']' then
      String.mk (trimmed.data.drop 1).dropLast
    else if trimmed.data.contains ':' then (splitHostPort trimmed).host
    else trimmed

/-- `makeNodeId` (net.ts lines 56–60). The source tests `collateral ||`, so an
empty collateral string falls back to the normalized IP. -/
def makeNodeId (ip : String) (collateral : String) : String :=
  if collateral = "" then normalizeIp ip else collateral

/-- Lexicographic (UTF code point) order on strings, as JS `Array.sort`
compares strings. -/
def lexLe : List Char → List Char → Bool
  | [], _ => true
  | _ :: _, [] => false
  | a :: as, b :: bs =>
    if a.toNat < b.toNat then true
    else if b.toNat < a.toNat then false
    else lexLe as bs

/-- `edgeKey` (net.ts lines 62–65): sorted join of the two endpoint ids. -/
def edgeKey (a b : String) : String :=
  if lexLe a.data b.data then a ++ "|" ++ b else b ++ "|" ++ a

example : splitHostPort "1.2.3.4:16127" = { host := "1.2.3.4", port := some 16127 } := by decide
example : splitHostPort "1.2.3.4" = { host := "1.2.3.4", port := none } := by decide
example : splitHostPort "" = { host := "", port := none } := by decide
example : splitHostPort "[abcd::1]:9000" = { host := "abcd::1", port := some 9000 } := by decide
example : splitHostPort "[abcd::1]" = { host := "abcd::1", port := none } := by decide
example : splitHostPort "abcd::1" = { host := "abcd:", port := some 1 } := by decide
example : splitHostPort "host:x" = { host := "host:x", port := none } := by decide
example : normalizeIp "[abcd::1]" = "abcd::1" := by decide
example : normalizeIp " 1.2.3.4 " = "1.2.3.4" := by decide
example : normalizeIp "1.2.3.4:16127" = "1.2.3.4" := by decide
example : makeNodeId "1.2.3.4:16127" "" = "1.2.3.4" := by decide
example : makeNodeId "1.2.3.4:16127" "txabc" = "txabc" := by decide
example : edgeKey "b" "a" = "a|b" := by decide
example : edgeKey "a" "b" = "a|b" := by decide

/-! ### Data model (`backend/src/types/atlas.ts`, `atlasBuilder.ts` lines 9–44).
Fields that only feed display metadata (payment address, pubkey, heights,
endpoint URLs, …) are omitted: no claim reads them. -/

inductive NodeKind | flux | stub
  deriving DecidableEq, Repr

inductive NodeTier | CUMULUS | NIMBUS | STRATUS | UNKNOWN
  deriving DecidableEq, Repr

inductive NodeStatus | ARCANE | LEGACY | UNVERIFIED
  deriving DecidableEq, Repr

structure FluxNodeRecord where
  collateral : String
  ip : String
  tier : String
  deriving DecidableEq, Repr

structure Bandwidth where
  download_speed : ℚ
  upload_speed : ℚ
  deriving DecidableEq, Repr

structure InternalNode where
  id : String
  kind : NodeKind
  tier : NodeTier
  status : NodeStatus
  arcane : Option Bool
  record : Option FluxNodeRecord
  bandwidth : Option Bandwidth
  deriving DecidableEq, Repr

structure InternalEdge where
  key : String
  source : String
  target : String
  weight : ℚ
  stubEdge : Bool
  deriving DecidableEq, Repr

/-- Input contract from the crawler (`fluxApi.ts` `PeerFetchResult`). -/
structure PeerFetchResult where
  node : FluxNodeRecord
  outgoingPeers : List String
  incomingPeers : List String
  arcane : Option Bool
  bandwidth : Option Bandwidth
  deriving DecidableEq, Repr

/-- Configuration surface consumed by the pipeline (`config/env.ts`; every
numeric cap is clamped to `≥ 0` there, hence `Nat`). -/
structure Config where
  rpcPort : Nat
  includeExternalPeers : Bool
  maxStubNodes : Nat
  maxNodeDegree : Nat
  maxEdges : Nat
  layoutNodeCap : Nat
  quickSampleNodes : Nat
  deriving DecidableEq, Repr

/-- `toUpperCase` (ASCII view, enough for tier strings). -/
def toUpperString (s : String) : String := String.mk (s.data.map Char.toUpper)

/-- `mapTier` (atlasBuilder.ts lines 46–50); an empty tier string is falsy. -/
def mapTier (value : String) : NodeTier :=
  if value = "" then .UNKNOWN
  else
    let upper := toUpperString value
    if upper = "CUMULUS" then .CUMULUS
    else if upper = "NIMBUS" then .NIMBUS
    else if upper = "STRATUS" then .STRATUS
    else .UNKNOWN

/-- `determineStatus` (lines 52–56). -/
def determineStatus (arcane : Option Bool) : NodeStatus :=
  match arcane with
  | some true => .ARCANE
  | some false => .LEGACY
  | none => .UNVERIFIED

/-- `layoutExtent` (line 58). -/
def layoutExtent : ℚ := 1000

/-- `createFluxNode` (lines 60–75). -/
def createFluxNode (record : FluxNodeRecord) (arcane : Option Bool)
    (bandwidth : Option Bandwidth) : InternalNode :=
  { id := makeNodeId record.ip record.collateral
    kind := .flux
    tier := mapTier record.tier
    status := determineStatus arcane
    arcane := arcane
    record := some record
    bandwidth := bandwidth }

/-- `createStubNode` (lines 77–82). -/
def createStubNode (id : String) : InternalNode :=
  { id := id
    kind := .stub
    tier := .UNKNOWN
    status := .UNVERIFIED
    arcane := none
    record := none
    bandwidth := none }

/-! ### Adjacency index (lines 95–139) -/

structure NodeAdjacency where
  edges : JSet
  stubEdges : JSet
  deriving DecidableEq, Repr

/-- One endpoint update inside `buildAdjacency`'s loop. -/
def adjAdd (adjacency : JMap NodeAdjacency) (nodeId : String) (edge : InternalEdge) :
    JMap NodeAdjacency :=
  let entry := (jget adjacency nodeId).getD ⟨[], []⟩
  let entry : NodeAdjacency :=
    { edges := sadd entry.edges edge.key
      stubEdges := if edge.stubEdge then sadd entry.stubEdges edge.key else entry.stubEdges }
  jset adjacency nodeId entry

/-- `buildAdjacency` (lines 100–116). -/
def buildAdjacency (edges : JMap InternalEdge) : JMap NodeAdjacency :=
  edges.foldl (fun adjacency p => adjAdd (adjAdd adjacency p.2.source p.2) p.2.target p.2) []

/-- The paired edge-map/adjacency-index state threaded through `removeEdge`
and the constraint-enforcement functions. -/
structure EdgeState where
  edges : JMap InternalEdge
  adjacency : JMap NodeAdjacency
  deriving DecidableEq, Repr

/-- One endpoint update inside `removeEdge`. -/
def adjDel (adjacency : JMap NodeAdjacency) (nodeId : String) (key : String) :
    JMap NodeAdjacency :=
  match jget adjacency nodeId with
  | none => adjacency
  | some adj =>
    jset adjacency nodeId
      { edges := sdelete adj.edges key, stubEdges := sdelete adj.stubEdges key }

/-- `removeEdge` (lines 118–139). -/
def removeEdge (st : EdgeState) (key : String) : EdgeState :=
  match jget st.edges key with
  | none => st
  | some edge =>
    let edges := jdelete st.edges key
    let adjacency := adjDel st.adjacency edge.source key
    let adjacency := adjDel adjacency edge.target key
    ⟨edges, adjacency⟩

/-! ### Graph assembly (`buildGraph`, lines 258–434) -/

/-- The `if (!ipPortToId.has(key)) set(key, []); get(key)!.push(id)` pattern
(lines 276–294). -/
def pushAt (m : JMap (List String)) (k : String) (v : String) : JMap (List String) :=
  jset m k ((jget m k).getD [] ++ [v])

/-- The `ipPortToId` lookup map (lines 270–296): every node is indexed by its
bare host, and by `host:port` (its own port if listed, the default RPC port
otherwise). -/
def buildIpPortToId (cfg : Config) (peerResults : List PeerFetchResult) :
    JMap (List String) :=
  peerResults.foldl (fun m pr =>
    let nodeId := makeNodeId pr.node.ip pr.node.collateral
    let hp := splitHostPort pr.node.ip
    let m := pushAt m hp.host nodeId
    match hp.port with
    | some port => pushAt m (hp.host ++ ":" ++ Nat.repr port) nodeId
    | none => pushAt m (hp.host ++ ":" ++ Nat.repr cfg.rpcPort) nodeId) []

/-- The candidate-resolution chain for one outgoing peer address
(lines 322–347): raw string, then exact `host:port`, then `host:<default
port>` when portless, then bare host. -/
def resolvePeerIds (cfg : Config) (m : JMap (List String)) (peer : String) :
    Option (List String) :=
  match jget m peer with
  | some ids => some ids
  | none =>
    let hp := splitHostPort peer
    let step2 : Option (List String) :=
      match hp.port with
      | some port => jget m (hp.host ++ ":" ++ Nat.repr port)
      | none => none
    match step2 with
    | some ids => some ids
    | none =>
      let step3 : Option (List String) :=
        match hp.port with
        | none => jget m (hp.host ++ ":" ++ Nat.repr cfg.rpcPort)
        | some _ => none
      match step3 with
      | some ids => some ids
      | none => jget m hp.host

/-- State threaded through the outgoing-peer loop of `buildGraph`.
`rngCtr` counts the `Math.random()` draws made so far (the ambient RNG is
modelled as the parameter `rng`, consulted once per ambiguous resolution). -/
structure EdgeLoopState where
  nodes : JMap InternalNode
  edges : JMap InternalEdge
  rawEdgeCount : Nat
  outgoingCounts : JMap Nat
  rngCtr : Nat
  deriving DecidableEq, Repr

/-- Target selection (lines 361–369): a unique candidate is taken directly; an
ambiguous candidate set consults `Math.random()` (the `rng` stream) once.  The
second component is the updated draw counter. -/
def selectTarget (rng : Nat → Nat) (rngCtr : Nat) (targetIds : List String) : String × Nat :=
  match targetIds with
  | [t] => (t, rngCtr)
  | ts => (ts.getD (rng rngCtr % ts.length) "", rngCtr + 1)

/-- Target selection and edge creation (lines 361–389). -/
def mkEdge (rng : Nat → Nat) (st : EdgeLoopState) (sourceId : String)
    (sourceNode : InternalNode) (targetIds : List String) : EdgeLoopState :=
  let sel := selectTarget rng st.rngCtr targetIds
  let st := { st with rngCtr := sel.2 }
  let targetId := sel.1
  if targetId = sourceId then st
  else
    let key := sourceId ++ "|" ++ targetId
    let stubEdge :=
      ((jget st.nodes targetId).map (·.kind) = some .stub) || sourceNode.kind = .stub
    if jhas st.edges key then st
    else
      { st with
        edges := jset st.edges key
          { key := key, source := sourceId, target := targetId, weight := 1,
            stubEdge := stubEdge }
        rawEdgeCount := st.rawEdgeCount + 1 }

/-- Processing of one outgoing peer address (lines 322–390). -/
def processPeer (cfg : Config) (rng : Nat → Nat) (ipPortToId : JMap (List String))
    (sourceId : String) (sourceNode : InternalNode) (st : EdgeLoopState)
    (peer : String) : EdgeLoopState :=
  let resolved := resolvePeerIds cfg ipPortToId peer
  match resolved with
  | some ids =>
    if ids.isEmpty then
      -- `targetIds.length === 0`: external-peer branch
      if !cfg.includeExternalPeers then st
      else
        let nodes := if jhas st.nodes peer then st.nodes
                     else jset st.nodes peer (createStubNode peer)
        mkEdge rng { st with nodes := nodes } sourceId sourceNode [peer]
    else mkEdge rng st sourceId sourceNode ids
  | none =>
    if !cfg.includeExternalPeers then st
    else
      let nodes := if jhas st.nodes peer then st.nodes
                   else jset st.nodes peer (createStubNode peer)
      mkEdge rng { st with nodes := nodes } sourceId sourceNode [peer]

/-- Output of `buildGraph` (lines 249–256). -/
structure GraphSnapshot where
  nodes : JMap InternalNode
  edges : JMap InternalEdge
  adjacency : JMap NodeAdjacency
  rawEdgeCount : Nat
  outgoingCounts : JMap Nat
  incomingCounts : JMap Nat
  deriving DecidableEq, Repr

/-- `buildGraph` (lines 258–434).  Diagnostic counters that are only logged
(`successfulLookups`, `ambiguousLookups`, `failedLookups`, `targetHitCount`)
are not modelled. -/
def buildGraph (cfg : Config) (rng : Nat → Nat) (peerResults : List PeerFetchResult) :
    GraphSnapshot :=
  let nodes0 : JMap InternalNode := peerResults.foldl (fun m pr =>
    let fluxNode := createFluxNode pr.node pr.arcane pr.bandwidth
    jset m fluxNode.id fluxNode) []
  let ipPortToId := buildIpPortToId cfg peerResults
  let st0 : EdgeLoopState := ⟨nodes0, [], 0, [], 0⟩
  let st := peerResults.foldl (fun st pr =>
    let sourceId := makeNodeId pr.node.ip pr.node.collateral
    match jget st.nodes sourceId with
    | none => st
    | some sourceNode =>
      let st := { st with outgoingCounts := jset st.outgoingCounts sourceId pr.outgoingPeers.length }
      pr.outgoingPeers.foldl (processPeer cfg rng ipPortToId sourceId sourceNode) st) st0
  let incomingCounts : JMap Nat := peerResults.foldl (fun m pr =>
    jset m (makeNodeId pr.node.ip pr.node.collateral) pr.incomingPeers.length) []
  let adjacency := buildAdjacency st.edges
  ⟨st.nodes, st.edges, adjacency, st.rawEdgeCount, st.outgoingCounts, incomingCounts⟩

/-! ### Well-formedness of the edge map produced by graph assembly -/

/-- Every entry of the edge map stores its own (directed) key, the key is
`source + "|" + target`, and self-edges are excluded. -/
def edgeEntryOk (p : String × InternalEdge) : Prop :=
  p.1 = p.2.source ++ "|" ++ p.2.target ∧ p.2.key = p.1 ∧ p.2.source ≠ p.2.target

/-- Well-formed edge map: entries are well-keyed and keys are duplicate-free. -/
def EdgeMapWF (m : JMap InternalEdge) : Prop :=
  (∀ p ∈ m, edgeEntryOk p) ∧ (jkeys m).Nodup

theorem jhas_iff_mem_keys {α : Type} (m : JMap α) (k : String) :
    jhas m k = true ↔ k ∈ jkeys m := by
  induction m with
  | nil => simp [jhas, jkeys]
  | cons p ps ih =>
    rw [jhas, jkeys, List.map_cons, List.mem_cons, Bool.or_eq_true, beq_iff_eq, ih, jkeys]
    constructor
    · rintro (h | h)
      · exact Or.inl h.symm
      · exact Or.inr h
    · rintro (h | h)
      · exact Or.inl h.symm
      · exact Or.inr h

theorem jset_not_has {α : Type} (m : JMap α) (k : String) (v : α)
    (h : jhas m k = false) : jset m k v = m ++ [(k, v)] := by
  rw [jset, if_neg (by simp [h])]

/-- What `mkEdge` can do to the edge map: leave it alone, or append one new
entry keyed `sourceId|t` for some target `t ≠ sourceId` that was not yet
present. -/
theorem mkEdge_edges (rng : Nat → Nat) (st : EdgeLoopState) (sourceId : String)
    (sourceNode : InternalNode) (targetIds : List String) :
    (mkEdge rng st sourceId sourceNode targetIds).edges = st.edges ∨
    ∃ t e, t ≠ sourceId ∧ jhas st.edges (sourceId ++ "|" ++ t) = false ∧
      e.key = sourceId ++ "|" ++ t ∧ e.source = sourceId ∧ e.target = t ∧
      (mkEdge rng st sourceId sourceNode targetIds).edges =
        st.edges ++ [(sourceId ++ "|" ++ t, e)] := by
  rw [mkEdge]
  set sel := selectTarget rng st.rngCtr targetIds with hsel
  by_cases ht : sel.1 = sourceId
  · rw [if_pos ht]
    exact Or.inl rfl
  · rw [if_neg ht]
    by_cases hh : jhas st.edges (sourceId ++ "|" ++ sel.1)
    · rw [if_pos hh]
      exact Or.inl rfl
    · rw [if_neg hh]
      refine Or.inr ⟨sel.1,
        { key := sourceId ++ "|" ++ sel.1, source := sourceId, target := sel.1, weight := 1,
          stubEdge := ((jget st.nodes sel.1).map (·.kind) = some .stub)
            || sourceNode.kind = .stub },
        ht, by simpa using hh, rfl, rfl, rfl, ?_⟩
      exact jset_not_has _ _ _ (by simpa using hh)

theorem edgeMapWF_append (m : JMap InternalEdge) (t sourceId : String) (e : InternalEdge)
    (h : EdgeMapWF m) (ht : t ≠ sourceId) (hh : jhas m (sourceId ++ "|" ++ t) = false)
    (he1 : e.key = sourceId ++ "|" ++ t) (he2 : e.source = sourceId) (he3 : e.target = t) :
    EdgeMapWF (m ++ [(sourceId ++ "|" ++ t, e)]) := by
  constructor
  · intro p hp
    rcases List.mem_append.mp hp with hp | hp
    · exact h.1 p hp
    · rcases List.mem_singleton.mp hp with rfl
      refine ⟨by rw [he2, he3], by rw [he1], ?_⟩
      rw [he2, he3]
      exact fun hc => ht hc.symm
  · rw [jkeys, List.map_append]
    refine List.Nodup.append (by simpa [jkeys] using h.2) (by simp) ?_
    intro a ha hb
    simp only [List.map_cons, List.map_nil, List.mem_singleton] at hb
    subst hb
    have : jhas m (sourceId ++ "|" ++ t) = true := by
      rw [jhas_iff_mem_keys]
      simpa [jkeys] using ha
    rw [this] at hh
    exact Bool.true_eq_false.mp hh

theorem edgeMapWF_mkEdge (rng : Nat → Nat) (st : EdgeLoopState) (sourceId : String)
    (sourceNode : InternalNode) (targetIds : List String)
    (h : EdgeMapWF st.edges) : EdgeMapWF (mkEdge rng st sourceId sourceNode targetIds).edges := by
  rcases mkEdge_edges rng st sourceId sourceNode targetIds with heq | ⟨t, e, ht, hh, he1, he2, he3, heq⟩
  · rw [heq]
    exact h
  · rw [heq]
    exact edgeMapWF_append _ _ _ _ h ht hh he1 he2 he3

theorem edgeMapWF_processPeer (cfg : Config) (rng : Nat → Nat)
    (ipPortToId : JMap (List String)) (sourceId : String) (sourceNode : InternalNode)
    (st : EdgeLoopState) (peer : String) (h : EdgeMapWF st.edges) :
    EdgeMapWF (processPeer cfg rng ipPortToId sourceId sourceNode st peer).edges := by
  rw [processPeer]
  cases resolvePeerIds cfg ipPortToId peer with
  | none =>
    by_cases hi : cfg.includeExternalPeers
    · simp only [hi, Bool.not_true, Bool.false_eq_true, if_false]
      exact edgeMapWF_mkEdge rng
        { st with nodes := if jhas st.nodes peer then st.nodes
                           else jset st.nodes peer (createStubNode peer) }
        sourceId sourceNode [peer] h
    · simp only [hi, Bool.not_false, if_true]
      exact h
  | some ids =>
    by_cases he : ids.isEmpty
    · simp only [he, if_true]
      by_cases hi : cfg.includeExternalPeers
      · simp only [hi, Bool.not_true, Bool.false_eq_true, if_false]
        exact edgeMapWF_mkEdge rng
          { st with nodes := if jhas st.nodes peer then st.nodes
                             else jset st.nodes peer (createStubNode peer) }
          sourceId sourceNode [peer] h
      · simp only [hi, Bool.not_false, if_true]
        exact h
    · simp only [he, Bool.false_eq_true, if_false]
      exact edgeMapWF_mkEdge rng st sourceId sourceNode ids h

/-- Fold preservation helper. -/
theorem foldl_preserve {β σ : Type} (P : σ → Prop) (f : σ → β → σ)
    (hf : ∀ s b, P s → P (f s b)) : ∀ (l : List β) (s : σ), P s → P (l.foldl f s) := by
  intro l
  induction l with
  | nil => intro s hs; exact hs
  | cons b bs ih =>
    intro s hs
    rw [List.foldl_cons]
    exact ih _ (hf s b hs)

theorem edgeMapWF_buildGraph (cfg : Config) (rng : Nat → Nat)
    (peerResults : List PeerFetchResult) : EdgeMapWF (buildGraph cfg rng peerResults).edges := by
  rw [buildGraph]
  apply foldl_preserve (fun st : EdgeLoopState => EdgeMapWF st.edges)
  · intro st pr hst
    cases hsn : jget st.nodes (makeNodeId pr.node.ip pr.node.collateral) with
    | none =>
      simpa [hsn] using hst
    | some sourceNode =>
      simp only [hsn]
      apply foldl_preserve (fun st : EdgeLoopState => EdgeMapWF st.edges)
      · intro s p hs
        exact edgeMapWF_processPeer _ _ _ _ _ _ _ hs
      · exact hst
  · exact ⟨fun p hp => absurd hp (List.not_mem_nil p), by simp [jkeys]⟩

/-- A list whose members all project to the same key, drawn from a map with
duplicate-free keys, has at most one element. -/
theorem filter_fixed_key_le_one {α : Type} (pred : String × α → Bool) (c : String) :
    ∀ (m : JMap α), (jkeys m).Nodup → (∀ p ∈ m, pred p = true → p.1 = c) →
    (m.filter pred).length ≤ 1 := by
  intro m
  induction m with
  | nil => simp
  | cons p ps ih =>
    intro hnd hc
    rw [jkeys, List.map_cons, List.nodup_cons] at hnd
    by_cases hp : pred p
    · rw [List.filter_cons_of_pos hp]
      have hps : ps.filter pred = [] := by
        rw [List.filter_eq_nil_iff]
        intro q hq hqp
        have h1 : q.1 = c := hc q (List.mem_cons_of_mem _ hq) hqp
        have h2 : p.1 = c := hc p (List.mem_cons_self _ _) hp
        apply hnd.1
        have : p.1 = q.1 := h2.trans h1.symm
        rw [this]
        exact List.mem_map_of_mem (·.1) hq
      rw [hps]
      simp
    · rw [List.filter_cons_of_neg hp]
      exact ih hnd.2 (fun q hq => hc q (List.mem_cons_of_mem _ hq))

/-- `filter` over a disjunction is bounded by the sum of the two filters. -/
theorem length_filter_or_le {α : Type} (l : List α) (p q : α → Bool) :
    (l.filter (fun a => p a || q a)).length ≤ (l.filter p).length + (l.filter q).length := by
  induction l with
  | nil => simp
  | cons a as ih =>
    by_cases hp : p a <;> by_cases hq : q a <;>
      simp [List.filter_cons, hp, hq] <;> omega

/-! ### Concrete crawler inputs used by counterexamples and witnesses -/

/-- Directory records of primary nodes `A`, `B`, `C` at three distinct
addresses, identified by their collateral tokens. -/
def exRecA : FluxNodeRecord := ⟨"A", "10.0.0.1", "CUMULUS"⟩

def exRecB : FluxNodeRecord := ⟨"B", "10.0.0.2", "NIMBUS"⟩

def exRecC : FluxNodeRecord := ⟨"C", "10.0.0.3", "STRATUS"⟩

/-- Two-node scenario: `A` and `B` each report the other as an outgoing peer. -/
def exPeerA2 : PeerFetchResult := ⟨exRecA, ["10.0.0.2"], [], none, none⟩

def exPeerB2 : PeerFetchResult := ⟨exRecB, ["10.0.0.1"], [], none, none⟩

/-- Configuration with external-peer inclusion off and the degree/edge caps at
their "unlimited" sentinel 0. -/
def exCfg : Config :=
  { rpcPort := 16127, includeExternalPeers := false, maxStubNodes := 6000,
    maxNodeDegree := 0, maxEdges := 0, layoutNodeCap := 4200, quickSampleNodes := 0 }

/-- **C1, counterexample.**  Graph assembly keys edges by the *directed* pair
`sourceId|targetId` (atlasBuilder.ts line 377), not by the sorted join
`edgeKey` of net.ts.  When node `A` reports `B` and node `B` reports `A`, the
assembled edge map holds **two** edges over the unordered pair `{A, B}`; the
edge stored under `"B|A"` does not carry the sorted key `edgeKey "B" "A" =
"A|B"`. -/
theorem C1_counterexample :
    (((buildGraph exCfg (fun _ => 0) [exPeerA2, exPeerB2]).edges.filter
      (fun p => (p.2.source == "A" && p.2.target == "B") ||
                (p.2.source == "B" && p.2.target == "A"))).length = 2) ∧
    ((jget (buildGraph exCfg (fun _ => 0) [exPeerA2, exPeerB2]).edges "B|A").map (·.key)
       = some "B|A") ∧
    edgeKey "B" "A" = "A|B" ∧ ("B|A" : String) ≠ "A|B" := by
  decide

/-- **C1, amended.**  In every graph produced by graph assembly the edge key
is the **directed** join `source + "|" + target` of the reporting side and the
resolved target (duplicate reports of the same ordered pair are no-ops and
self-edges are dropped), so the edge map holds at most one edge per *ordered*
pair and hence at most two edges — one per direction — per unordered endpoint
pair; a single unordered edge only results when just one side's report
survives resolution, and downstream consumers deduplicate the two directions.
-/
theorem C1_directed_edge_key (cfg : Config) (rng : Nat → Nat)
    (peerResults : List PeerFetchResult) :
    (∀ p ∈ (buildGraph cfg rng peerResults).edges,
        p.1 = p.2.source ++ "|" ++ p.2.target ∧ p.2.key = p.1 ∧ p.2.source ≠ p.2.target) ∧
    (∀ a b : String,
      ((buildGraph cfg rng peerResults).edges.filter
        (fun p => p.2.source == a && p.2.target == b)).length ≤ 1) ∧
    (∀ a b : String,
      ((buildGraph cfg rng peerResults).edges.filter
        (fun p => (p.2.source == a && p.2.target == b) ||
                  (p.2.source == b && p.2.target == a))).length ≤ 2) := by
  obtain ⟨hok, hnd⟩ := edgeMapWF_buildGraph cfg rng peerResults
  have ordered : ∀ a b : String,
      ((buildGraph cfg rng peerResults).edges.filter
        (fun p => p.2.source == a && p.2.target == b)).length ≤ 1 := by
    intro a b
    apply filter_fixed_key_le_one _ (a ++ "|" ++ b) _ hnd
    intro p hp hpred
    rw [Bool.and_eq_true, beq_iff_eq, beq_iff_eq] at hpred
    rw [(hok p hp).1, hpred.1, hpred.2]
  refine ⟨hok, ordered, ?_⟩
  intro a b
  calc ((buildGraph cfg rng peerResults).edges.filter
        (fun p => (p.2.source == a && p.2.target == b) ||
                  (p.2.source == b && p.2.target == a))).length
      ≤ ((buildGraph cfg rng peerResults).edges.filter
          (fun p => p.2.source == a && p.2.target == b)).length +
        ((buildGraph cfg rng peerResults).edges.filter
          (fun p => p.2.source == b && p.2.target == a)).length :=
        length_filter_or_le _ _ _
    _ ≤ 2 := by
        have h1 := ordered a b
        have h2 := ordered b a
        omega

/-! ### C3: peer-resolution priority order -/

theorem splitOnChar_no_sep (c : Char) (cs : List Char) (h : ¬ cs.contains c) :
    splitOnChar c cs = [cs] := by
  induction cs with
  | nil => rfl
  | cons x xs ih =>
    rw [List.contains_cons] at h
    rw [Bool.not_eq_true, Bool.or_eq_false_iff] at h
    have hx : x ≠ c := by
      have := h.1
      simp only [beq_eq_false_iff_ne, ne_eq] at this
      exact fun hh => this hh.symm
    rw [splitOnChar, ih (by rw [h.2]; exact Bool.false_ne_true)]
    simp [hx]

/-- A nonempty, non-bracketed address with no colon splits into itself with no
port. -/
theorem splitHostPort_portless (value : String) (h1 : value ≠ "")
    (h2 : value.data.head? ≠ some '[') (h3 : ¬ value.data.contains ':') :
    splitHostPort value = { host := value, port := none } := by
  rw [splitHostPort, if_neg h1, if_neg h2, colonSplit]
  rw [splitOnChar_no_sep ':' value.data h3]
  simp

/-- Nodes `X` (portless, at the default RPC port) and `Y` (explicit port
17000) sharing host `9.9.9.9` — a uPNP address cluster. -/
def exRecX : FluxNodeRecord := ⟨"X", "9.9.9.9", "CUMULUS"⟩

def exRecY : FluxNodeRecord := ⟨"Y", "9.9.9.9:17000", "CUMULUS"⟩

def exPeerX : PeerFetchResult := ⟨exRecX, [], [], none, none⟩

def exPeerY : PeerFetchResult := ⟨exRecY, [], [], none, none⟩

/-- The `ipPortToId` lookup map for the `{X, Y}` cluster. -/
def exLookup : JMap (List String) := buildIpPortToId exCfg [exPeerX, exPeerY]

/-- **C3, counterexample.**  For the portless peer address `"9.9.9.9"`, whose
bare host is a lookup key, resolution returns the port-ignoring bare-host
candidate set `[X, Y]` even though the `host:defaultRpcPort` key
`"9.9.9.9:16127"` is present with the different (unambiguous) candidate set
`[X]`: the bare-host set is consulted *before* `host:defaultRpcPort`, not
after it. -/
theorem C3_counterexample :
    resolvePeerIds exCfg exLookup "9.9.9.9" = some ["X", "Y"] ∧
    jget exLookup ("9.9.9.9" ++ ":" ++ Nat.repr exCfg.rpcPort) = some ["X"] ∧
    (["X", "Y"] : List String) ≠ ["X"] := by
  decide

/-- **C3, amended.**  The resolver's first lookup is by the *raw* peer string
(line 324).  For a portless peer address the raw string *is* the bare host, so
the port-ignoring bare-host candidate set is consulted first, and the
`host:defaultRpcPort` set is consulted only when the bare host is absent from
the lookup map: resolution for such a peer equals
`lookup(peer) orElse lookup(peer + ":" + defaultRpcPort)`. -/
theorem C3_raw_lookup_first (cfg : Config) (m : JMap (List String)) (peer : String)
    (h1 : peer ≠ "") (h2 : peer.data.head? ≠ some '[') (h3 : ¬ peer.data.contains ':') :
    resolvePeerIds cfg m peer =
      ((jget m peer).or (jget m (peer ++ ":" ++ Nat.repr cfg.rpcPort))) := by
  cases hp : jget m peer with
  | some ids => simp [resolvePeerIds, hp]
  | none =>
    simp only [resolvePeerIds, hp, splitHostPort_portless peer h1 h2 h3]
    cases hq : jget m (peer ++ ":" ++ Nat.repr cfg.rpcPort) with
    | some ids => simp [hq]
    | none => simp [hq, hp]

/-- Witness for `C3_raw_lookup_first` at the concrete `{X, Y}` cluster. -/
theorem C3_raw_lookup_first_witness :
    ("9.9.9.9" : String) ≠ "" ∧
    ("9.9.9.9" : String).data.head? ≠ some '[' ∧
    ¬ ("9.9.9.9" : String).data.contains ':' ∧
    resolvePeerIds exCfg exLookup "9.9.9.9" =
      ((jget exLookup "9.9.9.9").or
        (jget exLookup ("9.9.9.9" ++ ":" ++ Nat.repr exCfg.rpcPort))) :=
  ⟨by decide, by decide, by decide,
    C3_raw_lookup_first exCfg exLookup "9.9.9.9" (by decide) (by decide) (by decide)⟩

/-! ### Stable sort (model of `Array.prototype.sort`, which is stable)

`lt a b` means "the comparator orders `a` strictly before `b`"; ties keep the
original order, as a JS stable sort does. -/

def insertBy {α : Type} (lt : α → α → Bool) (x : α) : List α → List α
  | [] => [x]
  | y :: ys => if lt y x then y :: insertBy lt x ys else x :: y :: ys

def stableSortBy {α : Type} (lt : α → α → Bool) : List α → List α
  | [] => []
  | x :: xs => insertBy lt x (stableSortBy lt xs)

theorem insertBy_perm {α : Type} (lt : α → α → Bool) (x : α) (l : List α) :
    (insertBy lt x l).Perm (x :: l) := by
  induction l with
  | nil => rfl
  | cons y ys ih =>
    rw [insertBy]
    by_cases h : lt y x
    · rw [if_pos h]
      exact (ih.cons y).trans (List.Perm.swap x y ys)
    · rw [if_neg h]

theorem stableSortBy_perm {α : Type} (lt : α → α → Bool) (l : List α) :
    (stableSortBy lt l).Perm l := by
  induction l with
  | nil => rfl
  | cons x xs ih =>
    exact (insertBy_perm lt x (stableSortBy lt xs)).trans (ih.cons x)

/-! ### Constraint enforcement (`atlasBuilder.ts` lines 141–247) -/

/-- The full mutable graph state threaded through constraint enforcement. -/
structure MutGraph where
  nodes : JMap InternalNode
  edges : JMap InternalEdge
  adjacency : JMap NodeAdjacency
  deriving DecidableEq, Repr

/-- The removal-ordering priority inside `enforceMaxDegree` (lines 156–164):
`(otherEndpointIsStub ? 0 : 1) * 1000 + weight`. -/
def edgeRemovalPriority (nodes : JMap InternalNode) (nodeId : String)
    (e : InternalEdge) : ℚ :=
  let other := if e.source = nodeId then e.target else e.source
  jsAdd (jsMul (if (jget nodes other).map (·.kind) = some .stub then 0 else 1) 1000) e.weight

/-- The `while (adj.edges.size > maxDegree)` loop of `enforceMaxDegree`
(lines 153–170).  `fuel` bounds the iteration count (the entry fuel — the
node's initial incident-edge count — always suffices); `candidates = []`
models the `if (!toRemove) break` guard (unreachable while the adjacency/edge
maps are in sync, where `edges.get(edgeKey)!` cannot be undefined). -/
def enforceMaxDegreeNode (nodes : JMap InternalNode) (maxDegree : Nat) (nodeId : String) :
    Nat → EdgeState → EdgeState
  | 0, st => st
  | fuel + 1, st =>
    match jget st.adjacency nodeId with
    | none => st
    | some adj =>
      if adj.edges.length ≤ maxDegree then st
      else
        let candidates := stableSortBy
          (fun a b => decide (edgeRemovalPriority nodes nodeId a <
                              edgeRemovalPriority nodes nodeId b))
          (adj.edges.filterMap (fun k => jget st.edges k))
        match candidates with
        | [] => st
        | e :: _ => enforceMaxDegreeNode nodes maxDegree nodeId fuel (removeEdge st e.key)

/-- One `nodes.forEach` iteration of `enforceMaxDegree` (lines 149–171):
skip nodes without an adjacency entry, else run the trimming loop with the
node's current incident count as fuel. -/
def enforceMaxDegreeStep (nodes : JMap InternalNode) (maxDegree : Nat)
    (st : EdgeState) (node : InternalNode) : EdgeState :=
  match jget st.adjacency node.id with
  | none => st
  | some adj => enforceMaxDegreeNode nodes maxDegree node.id adj.edges.length st

/-- `enforceMaxDegree` (lines 141–172); a cap of `0` means "unlimited". -/
def enforceMaxDegree (nodes : JMap InternalNode) (st : EdgeState) (maxDegree : Nat) :
    EdgeState :=
  if maxDegree = 0 then st
  else (jvalues nodes).foldl (enforceMaxDegreeStep nodes maxDegree) st

/-- The global removal priority of `enforceEdgeCap` (lines 182–186):
`(stubEdge ? 0 : 1) * 1000 + weight`. -/
def edgeCapPriority (e : InternalEdge) : ℚ :=
  jsAdd (jsMul (if e.stubEdge then 0 else 1) 1000) e.weight

/-- The `while (edges.size > maxEdges)` loop of `enforceEdgeCap`
(lines 181–191), with the same fuel treatment as `enforceMaxDegreeNode`. -/
def enforceEdgeCapLoop (maxEdges : Nat) : Nat → EdgeState → EdgeState
  | 0, st => st
  | fuel + 1, st =>
    if st.edges.length ≤ maxEdges then st
    else
      match stableSortBy (fun a b => decide (edgeCapPriority a < edgeCapPriority b))
          (jvalues st.edges) with
      | [] => st
      | e :: _ => enforceEdgeCapLoop maxEdges fuel (removeEdge st e.key)

/-- `enforceEdgeCap` (lines 174–192); a cap of `0` means "unlimited". -/
def enforceEdgeCap (st : EdgeState) (maxEdges : Nat) : EdgeState :=
  if maxEdges = 0 then st else enforceEdgeCapLoop maxEdges st.edges.length st

/-- Removal of every edge incident to a node, as done when a stub node is
dropped (lines 203–206 / 228–231): snapshot the adjacency set, then remove. -/
def removeNodeEdges (st : EdgeState) (nodeId : String) : EdgeState :=
  match jget st.adjacency nodeId with
  | none => st
  | some adj => adj.edges.foldl removeEdge st

/-- Removal of one stub node together with its edges. -/
def dropStub (g : MutGraph) (nodeId : String) : MutGraph :=
  let es := removeNodeEdges ⟨g.edges, g.adjacency⟩ nodeId
  ⟨jdelete g.nodes nodeId, es.edges, es.adjacency⟩

/-- `enforceStubCap` (lines 194–234): a cap of `0` removes *all* stubs;
otherwise the stubs ranked lowest by current degree (descending order,
`slice(maxStubs)`) are removed with their edges. -/
def enforceStubCap (g : MutGraph) (maxStubs : Nat) : MutGraph :=
  let stubNodes := (jvalues g.nodes).filter (fun n => n.kind == NodeKind.stub)
  if maxStubs = 0 then
    stubNodes.foldl (fun g node => dropStub g node.id) g
  else if stubNodes.length ≤ maxStubs then g
  else
    let degreeMap : JMap Nat :=
      g.adjacency.foldl (fun m p => jset m p.1 p.2.edges.length) []
    let sorted := stableSortBy
      (fun a b => decide ((jget degreeMap b.id).getD 0 < (jget degreeMap a.id).getD 0))
      stubNodes
    (sorted.drop maxStubs).foldl (fun g node => dropStub g node.id) g

/-- `dropIsolatedStubs` (lines 236–247). -/
def dropIsolatedStubs (g : MutGraph) : MutGraph :=
  (jvalues g.nodes).foldl (fun g node =>
    if node.kind = NodeKind.stub then
      match jget g.adjacency node.id with
      | none => { g with nodes := jdelete g.nodes node.id }
      | some adj =>
        if adj.edges.isEmpty then { g with nodes := jdelete g.nodes node.id } else g
    else g) g

/-- The Constraint Enforcer: the four steps in the order `buildArtifacts`
applies them (lines 923–933). -/
def enforceAll (cfg : Config) (g : MutGraph) : MutGraph :=
  let g1 := enforceStubCap g cfg.maxStubNodes
  let es2 := enforceMaxDegree g1.nodes ⟨g1.edges, g1.adjacency⟩ cfg.maxNodeDegree
  let es3 := enforceEdgeCap es2 cfg.maxEdges
  dropIsolatedStubs ⟨g1.nodes, es3.edges, es3.adjacency⟩

/-! ### Set and map membership lemmas -/

theorem scontains_iff (s : JSet) (k : String) : s.contains k = true ↔ k ∈ s :=
  List.elem_iff

theorem mem_sadd (s : JSet) (k k' : String) :
    k' ∈ sadd s k ↔ k' ∈ s ∨ k' = k := by
  rw [sadd]
  by_cases h : s.contains k
  · rw [if_pos h]
    constructor
    · exact Or.inl
    · rintro (hk | hk)
      · exact hk
      · rw [hk]
        exact (scontains_iff _ _).mp h
  · rw [if_neg h]
    simp [List.mem_append]

theorem sadd_nodup (s : JSet) (k : String) (h : s.Nodup) : (sadd s k).Nodup := by
  rw [sadd]
  by_cases hc : s.contains k
  · rw [if_pos hc]
    exact h
  · rw [if_neg hc]
    refine List.Nodup.append h (by simp) ?_
    intro a ha hb
    rcases List.mem_singleton.mp hb with rfl
    exact hc ((scontains_iff s a).mpr ha)

theorem mem_sdelete (s : JSet) (k k' : String) :
    k' ∈ sdelete s k ↔ k' ∈ s ∧ k' ≠ k := by
  rw [sdelete]
  rw [List.mem_filter]
  simp

theorem sdelete_nodup (s : JSet) (k : String) (h : s.Nodup) : (sdelete s k).Nodup :=
  h.filter _

theorem sdelete_length_le (s : JSet) (k : String) :
    (sdelete s k).length ≤ s.length :=
  List.length_filter_le _ _

theorem sdelete_length_of_mem (s : JSet) (k : String) (hm : k ∈ s) (hnd : s.Nodup) :
    (sdelete s k).length + 1 = s.length := by
  induction s with
  | nil => cases hm
  | cons x xs ih =>
    rw [List.nodup_cons] at hnd
    rcases List.mem_cons.mp hm with rfl | hm'
    · have h1 : sdelete (k :: xs) k = xs := by
        rw [sdelete, List.filter_cons_of_neg (by simp)]
        exact List.filter_eq_self.mpr (fun a ha => by
          simp only [bne_iff_ne, ne_eq, decide_eq_true_eq]
          exact fun hh => hnd.1 (hh ▸ ha))
      rw [h1, List.length_cons]
    · have hx : x ≠ k := fun hh => hnd.1 (hh ▸ hm')
      rw [sdelete, List.filter_cons_of_pos (by simp [hx])]
      have h2 := ih hm' hnd.2
      rw [sdelete] at h2
      simp only [List.length_cons]
      omega

theorem jget_jdelete {α : Type} (m : JMap α) (k k' : String) :
    jget (jdelete m k) k' = if k' = k then none else jget m k' := by
  induction m with
  | nil => simp [jdelete, jget]
  | cons p ps ih =>
    by_cases hp : p.1 = k
    · rw [jdelete, List.filter_cons_of_neg (by simp [hp])]
      rw [jdelete] at ih
      rw [ih]
      by_cases hk : k' = k
      · simp [hk]
      · rw [if_neg hk, if_neg hk, jget, if_neg (by rw [hp]; exact fun hh => hk hh.symm)]
    · rw [jdelete, List.filter_cons_of_pos (by simp [hp])]
      rw [jget]
      by_cases hpk : p.1 = k'
      · rw [if_pos hpk, if_neg (by rw [← hpk]; exact hp), jget, if_pos hpk]
      · rw [if_neg hpk, jdelete] at *
        rw [ih]
        by_cases hk : k' = k
        · simp [hk]
        · rw [if_neg hk, if_neg hk, jget, if_neg hpk]

theorem jget_mem {α : Type} (m : JMap α) (k : String) (v : α)
    (h : jget m k = some v) : (k, v) ∈ m := by
  induction m with
  | nil => cases h
  | cons p ps ih =>
    rw [jget] at h
    by_cases hp : p.1 = k
    · rw [if_pos hp] at h
      have h2 : p.2 = v := by injection h
      have hv : p = (k, v) := by
        calc p = (p.1, p.2) := rfl
          _ = (k, v) := by rw [hp, h2]
      rw [← hv]
      exact List.mem_cons_self p ps
    · rw [if_neg hp] at h
      exact List.mem_cons_of_mem _ (ih h)

theorem mem_jget {α : Type} (m : JMap α) (k : String) (v : α)
    (hnd : (jkeys m).Nodup) (h : (k, v) ∈ m) : jget m k = some v := by
  induction m with
  | nil => cases h
  | cons p ps ih =>
    rw [jkeys, List.map_cons, List.nodup_cons] at hnd
    rcases List.mem_cons.mp h with rfl | h'
    · rw [jget, if_pos rfl]
    · have hp : p.1 ≠ k := by
        intro hh
        exact hnd.1 (hh ▸ List.mem_map_of_mem (·.1) h')
      rw [jget, if_neg hp]
      exact ih hnd.2 h'

theorem jget_iff_mem {α : Type} (m : JMap α) (k : String) (v : α)
    (hnd : (jkeys m).Nodup) : jget m k = some v ↔ (k, v) ∈ m :=
  ⟨jget_mem m k v, mem_jget m k v hnd⟩

theorem jkeys_jdelete_sublist {α : Type} (m : JMap α) (k : String) :
    (jkeys (jdelete m k)).Sublist (jkeys m) :=
  List.Sublist.map _ (List.filter_sublist m)

/-! ### Adjacency characterization -/

/-- The incident-edge key set recorded for `n` (empty if no entry). -/
def adjEdges (adjacency : JMap NodeAdjacency) (n : String) : JSet :=
  ((jget adjacency n).map (·.edges)).getD []

theorem adjEdges_adjAdd (A : JMap NodeAdjacency) (m : String) (e : InternalEdge)
    (n : String) :
    adjEdges (adjAdd A m e) n =
      if n = m then sadd (adjEdges A m) e.key else adjEdges A n := by
  rw [adjAdd]
  by_cases h : n = m
  · subst h
    rw [if_pos rfl, adjEdges, jget_jset_self]
    cases hq : jget A n <;> simp [adjEdges, hq]
  · rw [if_neg h, adjEdges, jget_jset_ne _ _ _ _ h, adjEdges]

theorem adjEdges_adjDel (A : JMap NodeAdjacency) (m : String) (k : String)
    (n : String) :
    adjEdges (adjDel A m k) n =
      if n = m then sdelete (adjEdges A m) k else adjEdges A n := by
  rw [adjDel]
  cases hq : jget A m with
  | none =>
    by_cases h : n = m
    · subst h
      rw [if_pos rfl, adjEdges, hq]
      rfl
    · rw [if_neg h]
  | some adj =>
    by_cases h : n = m
    · subst h
      rw [if_pos rfl, adjEdges, jget_jset_self, adjEdges, hq]
      rfl
    · rw [if_neg h, adjEdges, jget_jset_ne _ _ _ _ h, adjEdges]

/-! ### The adjacency/edge synchronization invariant -/

/-- Spec §3 invariant: an edge key is recorded for node `n` exactly when the
edge map holds an edge under that key with `n` as one of its endpoints.
(Applied to both endpoints this is: a key is in the edge map iff it is in the
adjacency sets of both its endpoints, and it never appears elsewhere.) -/
def Consistent (st : EdgeState) : Prop :=
  ∀ n k, k ∈ adjEdges st.adjacency n ↔
    ∃ e, jget st.edges k = some e ∧ (e.source = n ∨ e.target = n)

/-- Well-formedness carried through constraint enforcement: well-keyed and
duplicate-free edge map, duplicate-free adjacency sets, and the
synchronization invariant. -/
def StateWF (st : EdgeState) : Prop :=
  (∀ p ∈ st.edges, p.2.key = p.1) ∧ (jkeys st.edges).Nodup ∧
  (∀ n, (adjEdges st.adjacency n).Nodup) ∧ Consistent st

/-- Membership in the adjacency map built by one `buildAdjacency` step. -/
theorem mem_adjEdges_adjAdd2 (A : JMap NodeAdjacency) (p : String × InternalEdge)
    (hk : p.2.key = p.1) (n k : String) :
    k ∈ adjEdges (adjAdd (adjAdd A p.2.source p.2) p.2.target p.2) n ↔
      (k ∈ adjEdges A n ∨ (k = p.1 ∧ (p.2.source = n ∨ p.2.target = n))) := by
  by_cases ht : n = p.2.target
  · subst ht
    rw [adjEdges_adjAdd, if_pos rfl, adjEdges_adjAdd]
    by_cases hs : p.2.target = p.2.source
    · rw [if_pos hs, mem_sadd, mem_sadd, hk, hs]
      tauto
    · rw [if_neg hs, mem_sadd, hk]
      constructor
      · rintro (h | h)
        · exact Or.inl h
        · exact Or.inr ⟨h, Or.inr rfl⟩
      · rintro (h | ⟨h, _⟩)
        · exact Or.inl h
        · exact Or.inr h
  · rw [adjEdges_adjAdd, if_neg ht, adjEdges_adjAdd]
    by_cases hs : n = p.2.source
    · subst hs
      rw [if_pos rfl, mem_sadd, hk]
      constructor
      · rintro (h | h)
        · exact Or.inl h
        · exact Or.inr ⟨h, Or.inl rfl⟩
      · rintro (h | ⟨h, _⟩)
        · exact Or.inl h
        · exact Or.inr h
    · rw [if_neg hs]
      constructor
      · exact Or.inl
      · rintro (h | ⟨_, (h | h)⟩)
        · exact h
        · exact absurd h.symm hs
        · exact absurd h.symm ht

/-- Membership after folding `buildAdjacency`'s loop over a list of entries. -/
theorem mem_adjEdges_buildAdjacency_go (S : List (String × InternalEdge)) :
    ∀ (A : JMap NodeAdjacency), (∀ p ∈ S, p.2.key = p.1) → ∀ n k,
    (k ∈ adjEdges (S.foldl
        (fun adjacency p => adjAdd (adjAdd adjacency p.2.source p.2) p.2.target p.2) A) n ↔
      (k ∈ adjEdges A n ∨ ∃ e, (k, e) ∈ S ∧ (e.source = n ∨ e.target = n))) := by
  induction S with
  | nil =>
    intro A _ n k
    simp
  | cons p S ih =>
    intro A hwk n k
    rw [List.foldl_cons]
    rw [ih _ (fun q hq => hwk q (List.mem_cons_of_mem _ hq)) n k]
    rw [mem_adjEdges_adjAdd2 A p (hwk p (List.mem_cons_self _ _)) n k]
    constructor
    · rintro ((h | ⟨rfl, h⟩) | ⟨e, he, hend⟩)
      · exact Or.inl h
      · refine Or.inr ⟨p.2, ?_, by tauto⟩
        exact List.mem_cons_self _ _
      · exact Or.inr ⟨e, List.mem_cons_of_mem _ he, hend⟩
    · rintro (h | ⟨e, he, hend⟩)
      · exact Or.inl (Or.inl h)
      · rcases List.mem_cons.mp he with he | he
        · have h1 : k = p.1 := congrArg Prod.fst he
          have h2 : e = p.2 := congrArg Prod.snd he
          subst h2
          exact Or.inl (Or.inr ⟨h1, by tauto⟩)
        · exact Or.inr ⟨e, he, hend⟩

theorem nodup_adjEdges_buildAdjacency (E : JMap InternalEdge) :
    ∀ n, (adjEdges (buildAdjacency E) n).Nodup := by
  rw [buildAdjacency]
  have go : ∀ (S : List (String × InternalEdge)) (A : JMap NodeAdjacency),
      (∀ n, (adjEdges A n).Nodup) →
      ∀ n, (adjEdges (S.foldl
        (fun adjacency p => adjAdd (adjAdd adjacency p.2.source p.2) p.2.target p.2) A) n).Nodup := by
    intro S
    induction S with
    | nil => intro A hA; exact hA
    | cons p S ih =>
      intro A hA
      rw [List.foldl_cons]
      apply ih
      intro n
      rw [adjEdges_adjAdd]
      by_cases ht : n = p.2.target
      · rw [if_pos ht]
        apply sadd_nodup
        rw [adjEdges_adjAdd]
        by_cases hs : p.2.target = p.2.source
        · rw [if_pos hs]
          exact sadd_nodup _ _ (hA _)
        · rw [if_neg hs]
          exact hA _
      · rw [if_neg ht, adjEdges_adjAdd]
        by_cases hs : n = p.2.source
        · rw [if_pos hs]
          exact sadd_nodup _ _ (hA _)
        · rw [if_neg hs]
          exact hA _
  intro n
  apply go
  intro n'
  simp [adjEdges, jget]

/-- The adjacency index built wholesale from a well-formed edge map satisfies
the synchronization invariant. -/
theorem stateWF_buildAdjacency (E : JMap InternalEdge) (h : EdgeMapWF E) :
    StateWF ⟨E, buildAdjacency E⟩ := by
  refine ⟨fun p hp => ((h.1 p hp).2).1, h.2, nodup_adjEdges_buildAdjacency E, ?_⟩
  intro n k
  show k ∈ adjEdges (buildAdjacency E) n ↔ _
  rw [buildAdjacency]
  rw [mem_adjEdges_buildAdjacency_go E [] (fun p hp => ((h.1 p hp).2).1) n k]
  have hbase : k ∈ adjEdges ([] : JMap NodeAdjacency) n ↔ False := by
    simp [adjEdges, jget]
  rw [hbase, false_or]
  constructor
  · rintro ⟨e, he, hend⟩
    exact ⟨e, mem_jget E k e h.2 he, hend⟩
  · rintro ⟨e, he, hend⟩
    exact ⟨e, jget_mem E k e he, hend⟩

/-- `removeEdge` preserves the invariant bundle. -/
theorem stateWF_removeEdge (st : EdgeState) (k0 : String) (h : StateWF st) :
    StateWF (removeEdge st k0) := by
  obtain ⟨hwk, hnd, hadj, hcons⟩ := h
  rw [removeEdge]
  cases he0 : jget st.edges k0 with
  | none => exact ⟨hwk, hnd, hadj, hcons⟩
  | some e0 =>
    refine ⟨?_, ?_, ?_, ?_⟩
    · intro p hp
      exact hwk p (List.mem_of_mem_filter hp)
    · exact hnd.sublist (jkeys_jdelete_sublist st.edges k0)
    · intro n
      show ((adjEdges (adjDel (adjDel st.adjacency e0.source k0) e0.target k0) n)).Nodup
      rw [adjEdges_adjDel]
      by_cases ht : n = e0.target
      · rw [if_pos ht]
        apply sdelete_nodup
        rw [adjEdges_adjDel]
        by_cases hs : e0.target = e0.source
        · rw [if_pos hs]
          exact sdelete_nodup _ _ (hadj _)
        · rw [if_neg hs]
          exact hadj _
      · rw [if_neg ht, adjEdges_adjDel]
        by_cases hs : n = e0.source
        · rw [if_pos hs]
          exact sdelete_nodup _ _ (hadj _)
        · rw [if_neg hs]
          exact hadj _
    · intro n k
      show k ∈ adjEdges (adjDel (adjDel st.adjacency e0.source k0) e0.target k0) n ↔
        ∃ e, jget (jdelete st.edges k0) k = some e ∧ (e.source = n ∨ e.target = n)
      have hmem : k ∈ adjEdges (adjDel (adjDel st.adjacency e0.source k0) e0.target k0) n ↔
          (k ∈ adjEdges st.adjacency n ∧ ((n = e0.source ∨ n = e0.target) → k ≠ k0)) := by
        by_cases ht : n = e0.target
        · subst ht
          rw [adjEdges_adjDel, if_pos rfl, mem_sdelete, adjEdges_adjDel]
          by_cases hs : e0.target = e0.source
          · rw [if_pos hs, mem_sdelete, hs]
            tauto
          · rw [if_neg hs]
            constructor
            · rintro ⟨hm, hne⟩
              exact ⟨hm, fun _ => hne⟩
            · rintro ⟨hm, himp⟩
              exact ⟨hm, himp (Or.inr rfl)⟩
        · rw [adjEdges_adjDel, if_neg ht, adjEdges_adjDel]
          by_cases hs : n = e0.source
          · subst hs
            rw [if_pos rfl, mem_sdelete]
            constructor
            · rintro ⟨hm, hne⟩
              exact ⟨hm, fun _ => hne⟩
            · rintro ⟨hm, himp⟩
              exact ⟨hm, himp (Or.inl rfl)⟩
          · rw [if_neg hs]
            constructor
            · intro hm
              refine ⟨hm, fun hor => ?_⟩
              rcases hor with hor | hor
              · exact absurd hor hs
              · exact absurd hor ht
            · exact And.left
      rw [hmem, hcons n k, jget_jdelete]
      by_cases hk : k = k0
      · subst hk
        rw [if_pos rfl]
        constructor
        · rintro ⟨⟨e, hge, hend⟩, himp⟩
          rw [he0] at hge
          injection hge with hge
          subst hge
          rcases hend with hend | hend
          · exact (himp (Or.inl hend.symm) rfl).elim
          · exact (himp (Or.inr hend.symm) rfl).elim
        · rintro ⟨e, he, _⟩
          cases he
      · rw [if_neg hk]
        constructor
        · rintro ⟨hex, _⟩
          exact hex
        · intro hex
          exact ⟨hex, fun _ => hk⟩

/-! ### Preservation of the invariant bundle by each enforcement operation -/

/-- Well-formedness of the full graph state. -/
def MutWF (g : MutGraph) : Prop := StateWF ⟨g.edges, g.adjacency⟩

theorem stateWF_foldl_removeEdge (ks : List String) (st : EdgeState) (h : StateWF st) :
    StateWF (ks.foldl removeEdge st) :=
  foldl_preserve StateWF removeEdge (fun s k hs => stateWF_removeEdge s k hs) ks st h

theorem stateWF_removeNodeEdges (st : EdgeState) (nodeId : String) (h : StateWF st) :
    StateWF (removeNodeEdges st nodeId) := by
  rw [removeNodeEdges]
  cases jget st.adjacency nodeId with
  | none => exact h
  | some adj => exact stateWF_foldl_removeEdge adj.edges st h

theorem mutWF_dropStub (g : MutGraph) (nodeId : String) (h : MutWF g) :
    MutWF (dropStub g nodeId) :=
  stateWF_removeNodeEdges ⟨g.edges, g.adjacency⟩ nodeId h

theorem mutWF_enforceStubCap (g : MutGraph) (maxStubs : Nat) (h : MutWF g) :
    MutWF (enforceStubCap g maxStubs) := by
  rw [enforceStubCap]
  by_cases h0 : maxStubs = 0
  · rw [if_pos h0]
    exact foldl_preserve MutWF _ (fun s node hs => mutWF_dropStub s node.id hs) _ g h
  · rw [if_neg h0]
    by_cases hle : ((jvalues g.nodes).filter (fun n => n.kind == NodeKind.stub)).length ≤ maxStubs
    · rw [if_pos hle]
      exact h
    · rw [if_neg hle]
      exact foldl_preserve MutWF _ (fun s node hs => mutWF_dropStub s node.id hs) _ g h

theorem stateWF_enforceMaxDegreeNode (nodes : JMap InternalNode) (maxDegree : Nat)
    (nodeId : String) :
    ∀ (fuel : Nat) (st : EdgeState), StateWF st →
    StateWF (enforceMaxDegreeNode nodes maxDegree nodeId fuel st) := by
  intro fuel
  induction fuel with
  | zero => intro st h; exact h
  | succ fuel ih =>
    intro st h
    rw [enforceMaxDegreeNode]
    split
    · exact h
    · split
      · exact h
      · dsimp only
        split
        · exact h
        · exact ih _ (stateWF_removeEdge st _ h)

theorem stateWF_enforceMaxDegree (nodes : JMap InternalNode) (st : EdgeState)
    (maxDegree : Nat) (h : StateWF st) : StateWF (enforceMaxDegree nodes st maxDegree) := by
  rw [enforceMaxDegree]
  by_cases h0 : maxDegree = 0
  · rw [if_pos h0]
    exact h
  · rw [if_neg h0]
    apply foldl_preserve StateWF _ _ _ st h
    intro s node hs
    rw [enforceMaxDegreeStep]
    split
    · exact hs
    · exact stateWF_enforceMaxDegreeNode nodes maxDegree node.id _ s hs

theorem stateWF_enforceEdgeCapLoop (maxEdges : Nat) :
    ∀ (fuel : Nat) (st : EdgeState), StateWF st →
    StateWF (enforceEdgeCapLoop maxEdges fuel st) := by
  intro fuel
  induction fuel with
  | zero => intro st h; exact h
  | succ fuel ih =>
    intro st h
    rw [enforceEdgeCapLoop]
    by_cases hle : st.edges.length ≤ maxEdges
    · rw [if_pos hle]
      exact h
    · rw [if_neg hle]
      cases stableSortBy (fun a b => decide (edgeCapPriority a < edgeCapPriority b))
          (jvalues st.edges) with
      | nil => exact h
      | cons e rest => exact ih _ (stateWF_removeEdge st e.key h)

theorem stateWF_enforceEdgeCap (st : EdgeState) (maxEdges : Nat) (h : StateWF st) :
    StateWF (enforceEdgeCap st maxEdges) := by
  rw [enforceEdgeCap]
  by_cases h0 : maxEdges = 0
  · rw [if_pos h0]
    exact h
  · rw [if_neg h0]
    exact stateWF_enforceEdgeCapLoop maxEdges _ st h

/-- `dropIsolatedStubs` touches only the node map. -/
theorem dropIsolatedStubs_edges_adjacency (g : MutGraph) :
    (dropIsolatedStubs g).edges = g.edges ∧ (dropIsolatedStubs g).adjacency = g.adjacency := by
  rw [dropIsolatedStubs]
  apply foldl_preserve
    (fun g' : MutGraph => g'.edges = g.edges ∧ g'.adjacency = g.adjacency)
  · intro s node hs
    by_cases hk : node.kind = NodeKind.stub
    · simp only [hk, if_true]
      cases jget s.adjacency node.id with
      | none => exact hs
      | some adj =>
        by_cases he : adj.edges.isEmpty <;> simp only [he, if_true, Bool.false_eq_true, if_false]
        · exact hs
        · exact hs
    · simp only [hk, if_false]
      exact hs
  · exact ⟨rfl, rfl⟩

theorem mutWF_dropIsolatedStubs (g : MutGraph) (h : MutWF g) :
    MutWF (dropIsolatedStubs g) := by
  obtain ⟨he, ha⟩ := dropIsolatedStubs_edges_adjacency g
  rw [MutWF, he, ha]
  exact h

/-- The iff of the claim, split into its two directions: a key present in the
edge map is recorded for both endpoints, and every recorded key is backed by
an edge of the map with that node as an endpoint. -/
def EdgeInBoth (st : EdgeState) : Prop :=
  (∀ k e, jget st.edges k = some e →
    (k ∈ adjEdges st.adjacency e.source ∧ k ∈ adjEdges st.adjacency e.target)) ∧
  (∀ n k, k ∈ adjEdges st.adjacency n →
    ∃ e, jget st.edges k = some e ∧ (e.source = n ∨ e.target = n))

theorem consistent_edgeInBoth (st : EdgeState) (h : Consistent st) : EdgeInBoth st := by
  constructor
  · intro k e hg
    constructor
    · exact (h e.source k).mpr ⟨e, hg, Or.inl rfl⟩
    · exact (h e.target k).mpr ⟨e, hg, Or.inr rfl⟩
  · intro n k hm
    exact (h n k).mp hm

/-- **C4.**  The adjacency/edge synchronization invariant: right after the
initial adjacency build, and after `removeEdge` and each of the four
constraint-enforcement operations (stub cap, max-degree cap, max-edge cap,
isolated-stub pruning) applied to a well-formed state, an edge key is present
in the edge map iff it is present in the adjacency entries of both its
endpoints (and of no other node). -/
theorem C4_adjacency_edge_consistency :
    (∀ E : JMap InternalEdge, EdgeMapWF E → EdgeInBoth ⟨E, buildAdjacency E⟩) ∧
    (∀ (st : EdgeState) (k : String), StateWF st → EdgeInBoth (removeEdge st k)) ∧
    (∀ (g : MutGraph) (maxStubs : Nat), MutWF g →
      EdgeInBoth ⟨(enforceStubCap g maxStubs).edges, (enforceStubCap g maxStubs).adjacency⟩) ∧
    (∀ (nodes : JMap InternalNode) (st : EdgeState) (maxDegree : Nat), StateWF st →
      EdgeInBoth (enforceMaxDegree nodes st maxDegree)) ∧
    (∀ (st : EdgeState) (maxEdges : Nat), StateWF st →
      EdgeInBoth (enforceEdgeCap st maxEdges)) ∧
    (∀ g : MutGraph, MutWF g →
      EdgeInBoth ⟨(dropIsolatedStubs g).edges, (dropIsolatedStubs g).adjacency⟩) := by
  refine ⟨?_, ?_, ?_, ?_, ?_, ?_⟩
  · intro E h
    exact consistent_edgeInBoth _ (stateWF_buildAdjacency E h).2.2.2
  · intro st k h
    exact consistent_edgeInBoth _ (stateWF_removeEdge st k h).2.2.2
  · intro g maxStubs h
    exact consistent_edgeInBoth _ (mutWF_enforceStubCap g maxStubs h).2.2.2
  · intro nodes st maxDegree h
    exact consistent_edgeInBoth _ (stateWF_enforceMaxDegree nodes st maxDegree h).2.2.2
  · intro st maxEdges h
    exact consistent_edgeInBoth _ (stateWF_enforceEdgeCap st maxEdges h).2.2.2
  · intro g h
    exact consistent_edgeInBoth _ (mutWF_dropIsolatedStubs g h).2.2.2

/-- The edge map of the two-node mutual-report build. -/
def exEdges2 : JMap InternalEdge := (buildGraph exCfg (fun _ => 0) [exPeerA2, exPeerB2]).edges

/-- Witness for `C4_adjacency_edge_consistency` on the concrete two-node
build. -/
theorem C4_adjacency_edge_consistency_witness :
    EdgeInBoth ⟨exEdges2, buildAdjacency exEdges2⟩ :=
  C4_adjacency_edge_consistency.1 exEdges2
    (edgeMapWF_buildGraph exCfg (fun _ => 0) [exPeerA2, exPeerB2])

/-! ### C5: the max-degree cap -/

/-- `removeEdge` never grows any adjacency set. -/
theorem adjEdges_removeEdge_le (st : EdgeState) (k0 : String) (n : String) :
    (adjEdges (removeEdge st k0).adjacency n).length ≤ (adjEdges st.adjacency n).length := by
  rw [removeEdge]
  cases jget st.edges k0 with
  | none => exact Nat.le_refl _
  | some e0 =>
    show (adjEdges (adjDel (adjDel st.adjacency e0.source k0) e0.target k0) n).length ≤ _
    rw [adjEdges_adjDel]
    by_cases ht : n = e0.target
    · rw [if_pos ht, adjEdges_adjDel]
      by_cases hs : e0.target = e0.source
      · rw [if_pos hs]
        exact le_trans (sdelete_length_le _ _) (le_trans (sdelete_length_le _ _) (by rw [ht, hs]))
      · rw [if_neg hs]
        exact le_trans (sdelete_length_le _ _) (by rw [ht])
    · rw [if_neg ht, adjEdges_adjDel]
      by_cases hs : n = e0.source
      · rw [if_pos hs]
        exact le_trans (sdelete_length_le _ _) (by rw [hs])
      · rw [if_neg hs]

/-- Removing an edge incident to `n` strictly shrinks `n`'s adjacency set. -/
theorem adjEdges_removeEdge_lt (st : EdgeState) (k : String) (n : String)
    (e : InternalEdge) (hg : jget st.edges k = some e) (hn : e.source = n ∨ e.target = n)
    (hmem : k ∈ adjEdges st.adjacency n) (hnd : (adjEdges st.adjacency n).Nodup) :
    (adjEdges (removeEdge st k).adjacency n).length + 1 ≤ (adjEdges st.adjacency n).length := by
  rw [removeEdge, hg]
  show (adjEdges (adjDel (adjDel st.adjacency e.source k) e.target k) n).length + 1 ≤ _
  rw [adjEdges_adjDel]
  by_cases ht : n = e.target
  · subst ht
    rw [if_pos rfl, adjEdges_adjDel]
    by_cases hs : e.target = e.source
    · rw [if_pos hs, ← hs]
      have h1 := sdelete_length_of_mem _ k hmem hnd
      have h2 := sdelete_length_le (sdelete (adjEdges st.adjacency e.target) k) k
      omega
    · rw [if_neg hs]
      have h1 := sdelete_length_of_mem _ k hmem hnd
      omega
  · have hs : n = e.source := by
      rcases hn with hn | hn
      · exact hn.symm
      · exact absurd hn.symm ht
    subst hs
    rw [if_neg ht, adjEdges_adjDel, if_pos rfl]
    have h1 := sdelete_length_of_mem _ k hmem hnd
    omega

/-- `enforceMaxDegreeNode` never grows any adjacency set. -/
theorem enforceMaxDegreeNode_mono (nodes : JMap InternalNode) (maxDegree : Nat)
    (nodeId : String) :
    ∀ (fuel : Nat) (st : EdgeState) (n : String),
    (adjEdges (enforceMaxDegreeNode nodes maxDegree nodeId fuel st).adjacency n).length ≤
      (adjEdges st.adjacency n).length := by
  intro fuel
  induction fuel with
  | zero => intro st n; exact Nat.le_refl _
  | succ fuel ih =>
    intro st n
    rw [enforceMaxDegreeNode]
    split
    · exact Nat.le_refl _
    · split
      · exact Nat.le_refl _
      · dsimp only
        split
        · exact Nat.le_refl _
        · next e _ _ =>
          exact le_trans (ih _ n) (adjEdges_removeEdge_le st e.key n)

/-- A `filterMap` that drops nothing keeps the length. -/
theorem filterMap_length_eq {α β : Type} (f : α → Option β) (l : List α)
    (h : ∀ a ∈ l, (f a).isSome) : (l.filterMap f).length = l.length := by
  induction l with
  | nil => rfl
  | cons a as ih =>
    cases hf : f a with
    | none =>
      have := h a (List.mem_cons_self _ _)
      rw [hf] at this
      cases this
    | some b =>
      rw [List.filterMap_cons, hf, List.length_cons,
        ih (fun x hx => h x (List.mem_cons_of_mem _ hx)), List.length_cons]

/-- If the node's current incident count is within `fuel + maxDegree`, the
degree loop drives it to at most `maxDegree` (the `candidates = []` break is
unreachable under the synchronization invariant). -/
theorem enforceMaxDegreeNode_post (nodes : JMap InternalNode) (maxDegree : Nat)
    (nodeId : String) :
    ∀ (fuel : Nat) (st : EdgeState), StateWF st →
    (adjEdges st.adjacency nodeId).length ≤ fuel + maxDegree →
    (adjEdges (enforceMaxDegreeNode nodes maxDegree nodeId fuel st).adjacency nodeId).length ≤
      maxDegree := by
  intro fuel
  induction fuel with
  | zero =>
    intro st _ hb
    simpa [enforceMaxDegreeNode] using hb
  | succ fuel ih =>
    intro st hwf hb
    rw [enforceMaxDegreeNode]
    cases hadj : jget st.adjacency nodeId with
    | none =>
      simp only
      rw [adjEdges, hadj]
      exact Nat.zero_le _
    | some adj =>
      simp only
      by_cases hle : adj.edges.length ≤ maxDegree
      · rw [if_pos hle, adjEdges, hadj]
        exact hle
      · rw [if_neg hle]
        have hadjE : adjEdges st.adjacency nodeId = adj.edges := by
          rw [adjEdges, hadj]
          rfl
        rw [hadjE] at hb
        -- the candidate list is a permutation of a filterMap that drops nothing
        have hfm : ∀ k ∈ adj.edges, (jget st.edges k).isSome := by
          intro k hk
          have hx := (hwf.2.2.2 nodeId k).mp (by rw [hadjE]; exact hk)
          obtain ⟨e, he, _⟩ := hx
          rw [he]
          rfl
        have hlen : (adj.edges.filterMap (fun k => jget st.edges k)).length = adj.edges.length :=
          filterMap_length_eq _ _ hfm
        cases hc : stableSortBy
            (fun a b => decide (edgeRemovalPriority nodes nodeId a <
                                edgeRemovalPriority nodes nodeId b))
            (adj.edges.filterMap (fun k => jget st.edges k)) with
        | nil =>
          exfalso
          have h0 := (stableSortBy_perm
            (fun a b => decide (edgeRemovalPriority nodes nodeId a <
                                edgeRemovalPriority nodes nodeId b))
            (adj.edges.filterMap (fun k => jget st.edges k))).length_eq
          rw [hc, hlen] at h0
          simp only [List.length_nil] at h0
          omega
        | cons e rest =>
          show (adjEdges (enforceMaxDegreeNode nodes maxDegree nodeId fuel
            (removeEdge st e.key)).adjacency nodeId).length ≤ maxDegree
          have he_mem : e ∈ adj.edges.filterMap (fun k => jget st.edges k) := by
            have hx : e ∈ stableSortBy
                (fun a b => decide (edgeRemovalPriority nodes nodeId a <
                                    edgeRemovalPriority nodes nodeId b))
                (adj.edges.filterMap (fun k => jget st.edges k)) := by
              rw [hc]
              exact List.mem_cons_self _ _
            exact (stableSortBy_perm _ _).mem_iff.mp hx
          obtain ⟨k, hk_mem, hk_get⟩ := List.mem_filterMap.mp he_mem
          have hkey : e.key = k := hwf.1 (k, e) (jget_mem _ _ _ hk_get)
          have hkadj : k ∈ adjEdges st.adjacency nodeId := by
            rw [hadjE]
            exact hk_mem
          have hends : e.source = nodeId ∨ e.target = nodeId := by
            obtain ⟨e', he', hand⟩ := (hwf.2.2.2 nodeId k).mp hkadj
            rw [hk_get] at he'
            injection he' with he'
            rw [he']
            exact hand
          have hlt := adjEdges_removeEdge_lt st k nodeId e hk_get hends hkadj
            (hwf.2.2.1 nodeId)
          rw [hkey]
          apply ih (removeEdge st k) (stateWF_removeEdge st k hwf)
          rw [hadjE] at hlt
          omega


theorem stateWF_enforceMaxDegreeStep (nodes : JMap InternalNode) (maxDegree : Nat)
    (st : EdgeState) (node : InternalNode) (h : StateWF st) :
    StateWF (enforceMaxDegreeStep nodes maxDegree st node) := by
  rw [enforceMaxDegreeStep]
  split
  · exact h
  · exact stateWF_enforceMaxDegreeNode nodes maxDegree node.id _ st h

theorem enforceMaxDegreeStep_mono (nodes : JMap InternalNode) (maxDegree : Nat)
    (st : EdgeState) (node : InternalNode) (n : String) :
    (adjEdges (enforceMaxDegreeStep nodes maxDegree st node).adjacency n).length ≤
      (adjEdges st.adjacency n).length := by
  rw [enforceMaxDegreeStep]
  split
  · exact Nat.le_refl _
  · exact enforceMaxDegreeNode_mono nodes maxDegree node.id _ st n

theorem enforceMaxDegreeStep_post (nodes : JMap InternalNode) (maxDegree : Nat)
    (st : EdgeState) (node : InternalNode) (h : StateWF st) :
    (adjEdges (enforceMaxDegreeStep nodes maxDegree st node).adjacency node.id).length ≤
      maxDegree := by
  rw [enforceMaxDegreeStep]
  cases hadj : jget st.adjacency node.id with
  | none =>
    show (adjEdges st.adjacency node.id).length ≤ maxDegree
    rw [adjEdges, hadj]
    exact Nat.zero_le _
  | some adj =>
    show (adjEdges (enforceMaxDegreeNode nodes maxDegree node.id
      adj.edges.length st).adjacency node.id).length ≤ maxDegree
    apply enforceMaxDegreeNode_post nodes maxDegree node.id adj.edges.length st h
    rw [adjEdges, hadj]
    exact Nat.le_add_right _ _

/-- The `nodes.forEach` fold of `enforceMaxDegree`: well-formedness is kept,
no adjacency set grows, and every visited node ends at or under the cap. -/
theorem enforceMaxDegree_fold (nodes : JMap InternalNode) (maxDegree : Nat) :
    ∀ (l : List InternalNode) (st : EdgeState), StateWF st →
    StateWF (l.foldl (enforceMaxDegreeStep nodes maxDegree) st) ∧
    (∀ n, (adjEdges (l.foldl (enforceMaxDegreeStep nodes maxDegree) st).adjacency n).length ≤
      (adjEdges st.adjacency n).length) ∧
    (∀ node ∈ l,
      (adjEdges (l.foldl (enforceMaxDegreeStep nodes maxDegree) st).adjacency node.id).length ≤
        maxDegree) := by
  intro l
  induction l with
  | nil =>
    intro st h
    exact ⟨h, fun n => Nat.le_refl _, by simp⟩
  | cons nd l ih =>
    intro st h
    rw [List.foldl_cons]
    obtain ⟨ih1, ih2, ih3⟩ :=
      ih (enforceMaxDegreeStep nodes maxDegree st nd)
        (stateWF_enforceMaxDegreeStep nodes maxDegree st nd h)
    refine ⟨ih1, ?_, ?_⟩
    · intro n
      exact le_trans (ih2 n) (enforceMaxDegreeStep_mono nodes maxDegree st nd n)
    · intro node hnode
      rcases List.mem_cons.mp hnode with heq | hmem
      · subst heq
        exact le_trans (ih2 node.id) (enforceMaxDegreeStep_post nodes maxDegree st node h)
      · exact ih3 node hmem

theorem enforceEdgeCapLoop_mono (maxEdges : Nat) :
    ∀ (fuel : Nat) (st : EdgeState) (n : String),
    (adjEdges (enforceEdgeCapLoop maxEdges fuel st).adjacency n).length ≤
      (adjEdges st.adjacency n).length := by
  intro fuel
  induction fuel with
  | zero => intro st n; exact Nat.le_refl _
  | succ fuel ih =>
    intro st n
    rw [enforceEdgeCapLoop]
    split
    · exact Nat.le_refl _
    · split
      · exact Nat.le_refl _
      · next e _ _ =>
        exact le_trans (ih _ n) (adjEdges_removeEdge_le st e.key n)

theorem enforceEdgeCap_mono (st : EdgeState) (maxEdges : Nat) (n : String) :
    (adjEdges (enforceEdgeCap st maxEdges).adjacency n).length ≤
      (adjEdges st.adjacency n).length := by
  rw [enforceEdgeCap]
  split
  · exact Nat.le_refl _
  · exact enforceEdgeCapLoop_mono maxEdges _ st n

theorem jvalues_jdelete_subset {α : Type} (m : JMap α) (k : String) :
    ∀ v ∈ jvalues (jdelete m k), v ∈ jvalues m := by
  intro v hv
  rw [jvalues] at hv ⊢
  obtain ⟨p, hp, rfl⟩ := List.mem_map.mp hv
  exact List.mem_map_of_mem _ (List.mem_of_mem_filter hp)

theorem dropIsolatedStubs_nodes_subset (g : MutGraph) :
    ∀ node ∈ jvalues (dropIsolatedStubs g).nodes, node ∈ jvalues g.nodes := by
  rw [dropIsolatedStubs]
  apply foldl_preserve
    (fun g' : MutGraph => ∀ node ∈ jvalues g'.nodes, node ∈ jvalues g.nodes)
  · intro s node hs
    by_cases hk : node.kind = NodeKind.stub
    · simp only [hk, if_true]
      cases jget s.adjacency node.id with
      | none =>
        intro v hv
        exact hs v (jvalues_jdelete_subset s.nodes node.id v hv)
      | some adj =>
        by_cases he : adj.edges.isEmpty <;>
          simp only [he, if_true, Bool.false_eq_true, if_false]
        · intro v hv
          exact hs v (jvalues_jdelete_subset s.nodes node.id v hv)
        · exact hs
    · simp only [hk, if_false]
      exact hs
  · intro node h
    exact h

/-- **C5.**  The degree cap with its zero sentinel: a cap of `0` disables
degree enforcement entirely (no edge is removed), and for a positive cap,
after the full constraint-enforcement sequence (stub cap, max-degree cap,
max-edge cap, isolated-stub pruning, in that order) every remaining node's
incident-edge count is at most the cap. -/
theorem C5_degree_cap_zero_sentinel :
    (∀ (nodes : JMap InternalNode) (st : EdgeState), enforceMaxDegree nodes st 0 = st) ∧
    (∀ (cfg : Config) (g : MutGraph), MutWF g → cfg.maxNodeDegree ≠ 0 →
      ∀ node ∈ jvalues (enforceAll cfg g).nodes,
        (adjEdges (enforceAll cfg g).adjacency node.id).length ≤ cfg.maxNodeDegree) := by
  constructor
  · intro nodes st
    rw [enforceMaxDegree, if_pos rfl]
  · intro cfg g hwf hmd node hnode
    rw [enforceAll]
    rw [enforceAll] at hnode
    have h1 : MutWF (enforceStubCap g cfg.maxStubNodes) :=
      mutWF_enforceStubCap g cfg.maxStubNodes hwf
    obtain ⟨hde, hda⟩ := dropIsolatedStubs_edges_adjacency
      ⟨(enforceStubCap g cfg.maxStubNodes).nodes,
       (enforceEdgeCap (enforceMaxDegree (enforceStubCap g cfg.maxStubNodes).nodes
         ⟨(enforceStubCap g cfg.maxStubNodes).edges,
          (enforceStubCap g cfg.maxStubNodes).adjacency⟩ cfg.maxNodeDegree)
         cfg.maxEdges).edges,
       (enforceEdgeCap (enforceMaxDegree (enforceStubCap g cfg.maxStubNodes).nodes
         ⟨(enforceStubCap g cfg.maxStubNodes).edges,
          (enforceStubCap g cfg.maxStubNodes).adjacency⟩ cfg.maxNodeDegree)
         cfg.maxEdges).adjacency⟩
    rw [hda]
    have hnode' := dropIsolatedStubs_nodes_subset _ node hnode
    have hcap : (adjEdges (enforceMaxDegree (enforceStubCap g cfg.maxStubNodes).nodes
        ⟨(enforceStubCap g cfg.maxStubNodes).edges,
         (enforceStubCap g cfg.maxStubNodes).adjacency⟩
        cfg.maxNodeDegree).adjacency node.id).length ≤ cfg.maxNodeDegree := by
      rw [enforceMaxDegree, if_neg hmd]
      exact (enforceMaxDegree_fold (enforceStubCap g cfg.maxStubNodes).nodes
        cfg.maxNodeDegree (jvalues (enforceStubCap g cfg.maxStubNodes).nodes)
        _ h1).2.2 node hnode'
    exact le_trans (enforceEdgeCap_mono _ cfg.maxEdges node.id) hcap

/-- The graph state of the two-node mutual-report build, used as witness. -/
def exGraph2 : MutGraph :=
  ⟨(buildGraph exCfg (fun _ => 0) [exPeerA2, exPeerB2]).nodes, exEdges2,
    buildAdjacency exEdges2⟩

/-- Witness for `C5_degree_cap_zero_sentinel`: the concrete two-node build
under a cap of 1. -/
theorem C5_degree_cap_zero_sentinel_witness :
    ∀ node ∈ jvalues (enforceAll { exCfg with maxNodeDegree := 1 } exGraph2).nodes,
      (adjEdges (enforceAll { exCfg with maxNodeDegree := 1 } exGraph2).adjacency
        node.id).length ≤ ({ exCfg with maxNodeDegree := 1 } : Config).maxNodeDegree :=
  C5_degree_cap_zero_sentinel.2 { exCfg with maxNodeDegree := 1 } exGraph2
    (stateWF_buildAdjacency exEdges2
      (edgeMapWF_buildGraph exCfg (fun _ => 0) [exPeerA2, exPeerB2]))
    (by decide)

/-! ### Metrics Engine (`atlasBuilder.ts` lines 436–525, 740–803, 860–912) -/

/-- `computeDegreeMetrics` (lines 436–459): per node, the count of non-stub
incident edges (the raw degree) and the summed incident edge weight. -/
def computeDegreeMetrics (adjacency : JMap NodeAdjacency) (edges : JMap InternalEdge) :
    JMap ℚ × JMap ℚ :=
  adjacency.foldl (fun (acc : JMap ℚ × JMap ℚ) p =>
    let nonStubEdges := p.2.edges.filter (fun k =>
      match jget edges k with
      | some e => !e.stubEdge
      | none => false)
    let totalWeight := p.2.edges.foldl (fun sum k =>
      match jget edges k with
      | some e => jsAdd sum e.weight
      | none => sum) 0
    (jset acc.1 p.1 (nonStubEdges.length : ℚ), jset acc.2 p.1 totalWeight)) ([], [])

/-- The per-address grouping used by `normalizeClusterDegrees` (lines 469–481)
and `applyLayout` (lines 601–613): nodes with a directory record group by
normalized IP; stub nodes (no record) form singleton groups keyed by their own
id. -/
def groupsStep (groups : JMap (List InternalNode)) (node : InternalNode) :
    JMap (List InternalNode) :=
  match node.record with
  | some r =>
    let ip := normalizeIp r.ip
    jset groups ip (((jget groups ip).getD []) ++ [node])
  | none => jset groups node.id [node]

def groupsGo (l : List InternalNode) : JMap (List InternalNode) :=
  l.foldl groupsStep []

/-- `ipGroups` as both call sites build it, iterating the node map's values. -/
def ipGroupsOf (nodes : JMap InternalNode) : JMap (List InternalNode) :=
  groupsGo (jvalues nodes)

/-- One `ipGroups.forEach` iteration of `normalizeClusterDegrees`
(lines 488–514): a singleton keeps its raw degree, a larger cluster assigns
the cluster average to every member.  (A group is never empty; the `[]` case
is unreachable.) -/
def normalizeGroupStep (degree : JMap ℚ) (normalizedDegree : JMap ℚ)
    (p : String × List InternalNode) : JMap ℚ :=
  let nodesInGroup := p.2
  if nodesInGroup.length = 1 then
    match nodesInGroup with
    | [n] => jset normalizedDegree n.id ((jget degree n.id).getD 0)
    | _ => normalizedDegree
  else
    let aggregateDegree := nodesInGroup.foldl
      (fun sum n => jsAdd sum ((jget degree n.id).getD 0)) 0
    let normalizedValue := jsDiv aggregateDegree (nodesInGroup.length : ℚ)
    nodesInGroup.foldl (fun nd n => jset nd n.id normalizedValue) normalizedDegree

/-- `normalizeClusterDegrees` (lines 463–525); the logging-only counters are
not modelled. -/
def normalizeClusterDegrees (nodes : JMap InternalNode) (degree : JMap ℚ) : JMap ℚ :=
  (ipGroupsOf nodes).foldl (normalizeGroupStep degree) []

/-- `computeCentrality` (lines 785–792). -/
def computeCentrality (degree : JMap ℚ) (totalNodes : Nat) : JMap ℚ :=
  let divisor : ℚ := jsMax 1 (jsSub (totalNodes : ℚ) 1)
  degree.foldl (fun centrality p => jset centrality p.1 (jsDiv p.2 divisor)) []

/-- `computeHubThreshold` (lines 794–803).  `Math.floor(len * 0.9)` equals
`(9 * len) / 10` in `Nat` division: for every list length reachable here the
double-precision product `len * 0.9` rounds to a value with the same floor. -/
def computeHubThreshold (nodes : JMap InternalNode) (centrality : JMap ℚ) : ℚ :=
  let fluxCentralities := stableSortBy (fun a b => decide (a < b))
    (((jvalues nodes).filter (fun n => n.kind == NodeKind.flux)).map
      (fun n => (jget centrality n.id).getD 0))
  if fluxCentralities.length = 0 then 0
  else fluxCentralities.getD ((9 * fluxCentralities.length) / 10) 0

/-- `computeCompositeWeights` (lines 740–783). -/
def computeCompositeWeights (nodes : JMap InternalNode) (degree : JMap ℚ)
    (centrality : JMap ℚ) : JMap ℚ :=
  let bwOf := fun (n : InternalNode) =>
    match n.bandwidth with
    | some b => jsAdd b.download_speed b.upload_speed
    | none => (0 : ℚ)
  let maxes := (jvalues nodes).foldl (fun (m : ℚ × ℚ × ℚ) n =>
    (jsMax m.1 ((jget degree n.id).getD 0),
     jsMax m.2.1 ((jget centrality n.id).getD 0),
     jsMax m.2.2 (bwOf n))) (0, 0, 0)
  let maxDegree := jsMax maxes.1 1
  let maxCentrality := jsMax maxes.2.1 (mkRat 1 1000)
  let maxBandwidth := jsMax maxes.2.2 1
  (jvalues nodes).foldl (fun weights n =>
    let normalizedDegree := jsDiv ((jget degree n.id).getD 0) maxDegree
    let normalizedCentrality := jsDiv ((jget centrality n.id).getD 0) maxCentrality
    let normalizedBandwidth :=
      match n.bandwidth with
      | some b => jsDiv (jsAdd b.download_speed b.upload_speed) maxBandwidth
      | none => (0 : ℚ)
    jset weights n.id
      (jsDiv (jsAdd (jsAdd normalizedDegree normalizedCentrality) normalizedBandwidth) 3)) []

/-! ### Output artifact shapes (display-only `meta` strings omitted) -/

structure Position where
  x : ℚ
  y : ℚ
  deriving DecidableEq, Repr

structure Bounds where
  minX : ℚ
  maxX : ℚ
  minY : ℚ
  maxY : ℚ
  deriving DecidableEq, Repr

structure AtlasNodeMetrics where
  degree : ℚ
  degreeCentrality : ℚ
  connectionCount : Nat
  incomingPeers : Nat
  outgoingPeers : Nat
  deriving DecidableEq, Repr

structure AtlasNode where
  id : String
  label : String
  tier : NodeTier
  kind : NodeKind
  status : NodeStatus
  isArcane : Bool
  isHub : Bool
  metrics : AtlasNodeMetrics
  position : Position
  deriving DecidableEq, Repr

inductive EdgeKind | fluxFlux | fluxStub
  deriving DecidableEq, Repr

structure AtlasEdge where
  id : String
  source : String
  target : String
  weight : ℚ
  kind : EdgeKind
  deriving DecidableEq, Repr

/-- `toAtlasEdge` (lines 84–93). -/
def toAtlasEdge (edge : InternalEdge) : AtlasEdge :=
  ⟨edge.key, edge.source, edge.target, edge.weight,
    if edge.stubEdge then .fluxStub else .fluxFlux⟩

/-- `toAtlasNodes` (lines 805–858); the endpoint-URL metadata is display-only
and omitted. -/
def toAtlasNodes (nodes : JMap InternalNode) (positions : JMap Position)
    (degree : JMap ℚ) (centrality : JMap ℚ) (hubThreshold : ℚ)
    (outgoingCounts incomingCounts : JMap Nat) : List AtlasNode :=
  (jvalues nodes).map (fun node =>
    let degreeValue := (jget degree node.id).getD 0
    let outgoingValue := (jget outgoingCounts node.id).getD 0
    let incomingValue := (jget incomingCounts node.id).getD 0
    let centralityValue := (jget centrality node.id).getD 0
    let position := (jget positions node.id).getD ⟨0, 0⟩
    { id := node.id
      label := node.id
      tier := node.tier
      kind := node.kind
      status := node.status
      isArcane := node.arcane.getD false
      isHub := decide (hubThreshold ≤ centralityValue) && decide (node.kind = NodeKind.flux)
      metrics :=
        { degree := degreeValue
          degreeCentrality := centralityValue
          connectionCount := outgoingValue + incomingValue
          incomingPeers := incomingValue
          outgoingPeers := outgoingValue }
      position := position })

structure TierTotals where
  CUMULUS : Nat
  NIMBUS : Nat
  STRATUS : Nat
  UNKNOWN : Nat
  deriving DecidableEq, Repr

structure StatusTotals where
  ARCANE : Nat
  LEGACY : Nat
  UNVERIFIED : Nat
  deriving DecidableEq, Repr

structure AtlasStats where
  totalFluxNodes : Nat
  totalStubNodes : Nat
  totalNodes : Nat
  totalEdgesRaw : Nat
  totalEdgesTrimmed : Nat
  hubCount : Nat
  tierTotals : TierTotals
  statusTotals : StatusTotals
  stubAfterTrim : Nat
  quickSampleEnabled : Bool
  sampledCount : Nat
  buildDurationMs : Nat
  deriving DecidableEq, Repr

/-- `computeStats` (lines 860–912).  The source increments each counter inside
one `nodes.forEach`; each counter is independent, so every field is modelled
as its own count over the node values. -/
def computeStats (nodes : JMap InternalNode) (edges : JMap InternalEdge)
    (rawEdgeCount : Nat) (buildDurationMs : Nat) (hubThreshold : ℚ)
    (centrality : JMap ℚ) (cfg : Config) : AtlasStats :=
  let vals := jvalues nodes
  let stubCount := (vals.filter (fun n => n.kind == NodeKind.stub)).length
  { totalFluxNodes := (vals.filter (fun n => n.kind == NodeKind.flux)).length
    totalStubNodes := stubCount
    totalNodes := jsize nodes
    totalEdgesRaw := rawEdgeCount
    totalEdgesTrimmed := jsize edges
    hubCount := (vals.filter (fun n => n.kind == NodeKind.flux &&
      decide (hubThreshold ≤ (jget centrality n.id).getD 0))).length
    tierTotals :=
      { CUMULUS := (vals.filter (fun n => n.tier == NodeTier.CUMULUS)).length
        NIMBUS := (vals.filter (fun n => n.tier == NodeTier.NIMBUS)).length
        STRATUS := (vals.filter (fun n => n.tier == NodeTier.STRATUS)).length
        UNKNOWN := (vals.filter (fun n => n.tier == NodeTier.UNKNOWN)).length }
    statusTotals :=
      { ARCANE := (vals.filter (fun n => n.kind == NodeKind.flux &&
          n.status == NodeStatus.ARCANE)).length
        LEGACY := (vals.filter (fun n => n.kind == NodeKind.flux &&
          n.status == NodeStatus.LEGACY)).length
        UNVERIFIED := (vals.filter (fun n => n.kind == NodeKind.flux &&
          n.status == NodeStatus.UNVERIFIED)).length }
    stubAfterTrim := stubCount
    quickSampleEnabled := cfg.quickSampleNodes ≠ 0
    sampledCount := cfg.quickSampleNodes
    buildDurationMs := buildDurationMs }

/-! ### C6: characterization of the address-cluster grouping -/

/-- "Address cluster" as the spec's data model defines it: the record-backed
nodes sharing one normalized host address, in node order. -/
def recordCluster (l : List InternalNode) (ip : String) : List InternalNode :=
  l.filter (fun n =>
    match n.record with
    | some r => normalizeIp r.ip == ip
    | none => false)

/-- The (unique) stub with a given id, if any. -/
def stubAt (l : List InternalNode) (gk : String) : Option InternalNode :=
  l.find? (fun n => n.record.isNone && n.id == gk)

/-- What the grouping map contains for every key, relative to the processed
node list `P`. -/
def groupsSpec (P : List InternalNode) (g : JMap (List InternalNode)) : Prop :=
  ∀ gk, jget g gk =
    (if recordCluster P gk = [] then (stubAt P gk).map (fun s => [s])
     else some (recordCluster P gk))

theorem nodupIds_ne {l : List InternalNode} (h : (l.map (·.id)).Nodup)
    {a b : InternalNode} (ha : a ∈ l) (hb : b ∈ l) (hid : a.id = b.id) : a = b := by
  have := List.inj_on_of_nodup_map h
  exact this ha hb hid

theorem groupsGo_spec_go :
    ∀ (S P : List InternalNode) (g : JMap (List InternalNode)),
    ((P ++ S).map (·.id)).Nodup →
    (∀ s ∈ P ++ S, s.record = none → ∀ f ∈ P ++ S, ∀ r, f.record = some r →
      s.id ≠ normalizeIp r.ip) →
    groupsSpec P g →
    groupsSpec (P ++ S) (S.foldl groupsStep g) := by
  intro S
  induction S with
  | nil =>
    intro P g _ _ hg
    simpa using hg
  | cons node S ih =>
    intro P g hnd hcol hg
    rw [List.foldl_cons]
    have hassoc : P ++ node :: S = (P ++ [node]) ++ S := by
      simp
    rw [hassoc]
    apply ih (P ++ [node]) (groupsStep g node)
    · rw [← hassoc]
      exact hnd
    · rw [← hassoc]
      exact hcol
    -- one grouping step extends the spec from P to P ++ [node]
    · intro gk
      rw [groupsStep]
      cases hrec : node.record with
      | some r =>
        simp only
        by_cases hk : gk = normalizeIp r.ip
        · rw [hk, jget_jset_self]
          have hstub : stubAt P (normalizeIp r.ip) = none := by
            rw [stubAt, List.find?_eq_none]
            intro s hs hps
            rw [Bool.and_eq_true, beq_iff_eq] at hps
            have hsn : s.record = none := Option.isNone_iff_eq_none.mp hps.1
            exact hcol s (List.mem_append_left _ hs) hsn node
              (List.mem_append_right _ (List.mem_cons_self _ _)) r hrec (hps.2)
          have hsingle : List.filter (fun (n : InternalNode) =>
              match n.record with
              | some r' => normalizeIp r'.ip == normalizeIp r.ip
              | none => false) [node] = [node] := by
            rw [List.filter_singleton, hrec]
            show (bif (normalizeIp r.ip == normalizeIp r.ip) then [node] else []) = [node]
            rw [show (normalizeIp r.ip == normalizeIp r.ip) = true by simp]
            rfl
          have hclusterP : recordCluster (P ++ [node]) (normalizeIp r.ip) =
              recordCluster P (normalizeIp r.ip) ++ [node] := by
            rw [recordCluster, recordCluster, List.filter_append, hsingle]
          have hgetD : ((jget g (normalizeIp r.ip)).getD []) =
              recordCluster P (normalizeIp r.ip) := by
            rw [hg (normalizeIp r.ip)]
            by_cases hc : recordCluster P (normalizeIp r.ip) = []
            · rw [if_pos hc, hstub, hc]
              rfl
            · rw [if_neg hc]
              rfl
          rw [hgetD, hclusterP]
          rw [if_neg (by simp)]
        · rw [jget_jset_ne _ _ _ _ hk]
          have hsingle : List.filter (fun (n : InternalNode) =>
              match n.record with
              | some r' => normalizeIp r'.ip == gk
              | none => false) [node] = [] := by
            rw [List.filter_singleton, hrec]
            show (bif (normalizeIp r.ip == gk) then [node] else []) = []
            rw [show (normalizeIp r.ip == gk) = false by
              simp only [beq_eq_false_iff_ne, ne_eq]
              exact fun hh => hk hh.symm]
            rfl
          have hcluster : recordCluster (P ++ [node]) gk = recordCluster P gk := by
            rw [recordCluster, recordCluster, List.filter_append, hsingle, List.append_nil]
          have hstub : stubAt (P ++ [node]) gk = stubAt P gk := by
            rw [stubAt, List.find?_append, stubAt]
            have h1 : List.find? (fun n => n.record.isNone && n.id == gk) [node] = none := by
              rw [List.find?_cons]
              simp [hrec]
            rw [h1]
            cases List.find? (fun n => n.record.isNone && n.id == gk) P <;> rfl
          rw [hcluster, hstub, hg gk]
      | none =>
        simp only
        by_cases hk : gk = node.id
        · rw [hk, jget_jset_self]
          have hclusterP : recordCluster P node.id = [] := by
            rw [recordCluster, List.filter_eq_nil_iff]
            intro f hf hp
            cases hfr : f.record with
            | none => rw [hfr] at hp; cases hp
            | some r =>
              rw [hfr] at hp
              rw [beq_iff_eq] at hp
              exact hcol node (List.mem_append_right _ (List.mem_cons_self _ _)) hrec f
                (List.mem_append_left _ hf) r hfr hp.symm
          have hsingle : List.filter (fun (n : InternalNode) =>
              match n.record with
              | some r' => normalizeIp r'.ip == node.id
              | none => false) [node] = [] := by
            rw [List.filter_singleton, hrec]
            rfl
          have hcluster : recordCluster (P ++ [node]) node.id = [] := by
            rw [recordCluster, List.filter_append, hsingle, List.append_nil]
            rw [recordCluster] at hclusterP
            exact hclusterP
          have hstub : stubAt (P ++ [node]) node.id = some node := by
            rw [stubAt, List.find?_append]
            have h1 : List.find? (fun n => n.record.isNone && n.id == node.id) P = none := by
              rw [List.find?_eq_none]
              intro s hs hps
              rw [Bool.and_eq_true, beq_iff_eq] at hps
              have hne : s ≠ node := by
                intro hEq
                rw [List.map_append, List.map_cons, List.nodup_append] at hnd
                exact hnd.2.2 (List.mem_map_of_mem (·.id) hs)
                  (by rw [hps.2]; exact List.mem_cons_self _ _)
              exact hne (nodupIds_ne hnd (List.mem_append_left _ hs)
                (List.mem_append_right _ (List.mem_cons_self _ _)) hps.2)
            rw [h1]
            rw [List.find?_cons]
            simp [hrec]
          rw [hcluster, hstub]
          rw [if_pos rfl]
          rfl
        · rw [jget_jset_ne _ _ _ _ hk]
          have hsingle : List.filter (fun (n : InternalNode) =>
              match n.record with
              | some r' => normalizeIp r'.ip == gk
              | none => false) [node] = [] := by
            rw [List.filter_singleton, hrec]
            rfl
          have hcluster : recordCluster (P ++ [node]) gk = recordCluster P gk := by
            rw [recordCluster, recordCluster, List.filter_append, hsingle, List.append_nil]
          have hstub : stubAt (P ++ [node]) gk = stubAt P gk := by
            rw [stubAt, List.find?_append, stubAt]
            have h1 : List.find? (fun n => n.record.isNone && n.id == gk) [node] = none := by
              rw [List.find?_cons]
              have hni : ¬ (node.id == gk) := by
                simp only [beq_iff_eq]
                exact fun hh => hk hh.symm
              simp [hrec, hni]
            rw [h1]
            cases List.find? (fun n => n.record.isNone && n.id == gk) P <;> rfl
          rw [hcluster, hstub, hg gk]

/-- The grouping map of a node map with duplicate-free ids and no stub/record
key collisions: record nodes land exactly in their address cluster, stubs in a
singleton group under their own id. -/
theorem ipGroupsOf_spec (nodes : JMap InternalNode)
    (Hnd : ((jvalues nodes).map (·.id)).Nodup)
    (Hcol : ∀ s ∈ jvalues nodes, s.record = none → ∀ f ∈ jvalues nodes, ∀ r,
      f.record = some r → s.id ≠ normalizeIp r.ip) :
    groupsSpec (jvalues nodes) (ipGroupsOf nodes) := by
  have hbase : groupsSpec [] ([] : JMap (List InternalNode)) := by
    intro gk
    simp [recordCluster, stubAt, jget]
  have := groupsGo_spec_go (jvalues nodes) [] [] (by simpa using Hnd)
    (by simpa using Hcol) hbase
  simpa [ipGroupsOf, groupsGo] using this

/-- The value `normalizeClusterDegrees` assigns to a member of a group: its
own raw degree for a singleton, the group average otherwise. -/
def clusterValue (degree : JMap ℚ) (mem : List InternalNode) (x : String) : ℚ :=
  if mem.length = 1 then (jget degree x).getD 0
  else jsDiv (mem.foldl (fun sum n => jsAdd sum ((jget degree n.id).getD 0)) 0)
    (mem.length : ℚ)

theorem jget_foldl_jset_const {β : Type} (v : β) :
    ∀ (mem : List InternalNode) (acc : JMap β) (x : String),
    jget (mem.foldl (fun nd n => jset nd n.id v) acc) x =
      (if mem.any (fun n => n.id == x) then some v else jget acc x) := by
  intro mem
  induction mem with
  | nil =>
    intro acc x
    simp
  | cons n mem ih =>
    intro acc x
    rw [List.foldl_cons, ih, List.any_cons]
    by_cases hm : mem.any (fun n => n.id == x)
    · rw [if_pos hm, if_pos (by rw [hm, Bool.or_true])]
    · rw [if_neg hm]
      by_cases hn : n.id = x
      · rw [hn, jget_jset_self, if_pos (by simp)]
      · rw [jget_jset_ne _ _ _ _ (fun hh => hn hh.symm)]
        rw [if_neg (by simp [hn, hm])]

theorem normalizeGroupStep_get (degree nd : JMap ℚ) (p : String × List InternalNode)
    (x : String) :
    jget (normalizeGroupStep degree nd p) x =
      (if p.2.any (fun n => n.id == x) then some (clusterValue degree p.2 x)
       else jget nd x) := by
  unfold normalizeGroupStep
  dsimp only
  by_cases hl : p.2.length = 1
  · rw [if_pos hl]
    obtain ⟨n, hn⟩ := List.length_eq_one.mp hl
    rw [hn]
    show jget (jset nd n.id ((jget degree n.id).getD 0)) x = _
    by_cases hx : n.id = x
    · rw [hx, jget_jset_self, if_pos (by simp [hx]), clusterValue, if_pos (by simp)]
    · rw [jget_jset_ne _ _ _ _ (fun hh => hx hh.symm), if_neg (by simp [hx])]
  · rw [if_neg hl, jget_foldl_jset_const, clusterValue, if_neg hl]

theorem jkeys_jset_nodup {α : Type} (m : JMap α) (k : String) (v : α)
    (h : (jkeys m).Nodup) : (jkeys (jset m k v)).Nodup := by
  by_cases hh : jhas m k
  · rw [jkeys_jset m k v hh]
    exact h
  · rw [jset, if_neg (by simpa using hh)]
    have hkeys : jkeys (m ++ [(k, v)]) = jkeys m ++ [k] := by
      rw [jkeys, List.map_append]
      rfl
    rw [hkeys]
    refine List.Nodup.append h (by simp) ?_
    intro a ha hb
    rw [List.mem_singleton] at hb
    subst hb
    exact hh (jhas_iff_mem_keys m a |>.mpr ha)

theorem jkeys_groupsGo_nodup (l : List InternalNode) :
    (jkeys (groupsGo l)).Nodup := by
  rw [groupsGo]
  apply foldl_preserve (fun g => (jkeys g).Nodup) groupsStep
  · intro g n hg
    rw [groupsStep]
    cases n.record with
    | some r => exact jkeys_jset_nodup _ _ _ hg
    | none => exact jkeys_jset_nodup _ _ _ hg
  · simp [jkeys]

/-- Propagation of a single cluster's value through the `ipGroups.forEach`
fold of `normalizeClusterDegrees`. -/
theorem normalize_fold_get (degree : JMap ℚ) (x : String) (mem0 : List InternalNode) :
    ∀ (G : List (String × List InternalNode)) (acc : JMap ℚ),
    (∀ q ∈ G, ∀ m ∈ q.2, m.id = x → q.2 = mem0) →
    ((∃ q ∈ G, ∃ m ∈ q.2, m.id = x) ∨ jget acc x = some (clusterValue degree mem0 x)) →
    jget (G.foldl (normalizeGroupStep degree) acc) x =
      some (clusterValue degree mem0 x) := by
  intro G
  induction G with
  | nil =>
    intro acc _ hd
    rcases hd with h | h
    · obtain ⟨q, hq, -⟩ := h
      cases hq
    · simpa using h
  | cons q G ih =>
    intro acc huniq hd
    rw [List.foldl_cons]
    apply ih
    · intro q' hq' m hm hid
      exact huniq q' (List.mem_cons_of_mem _ hq') m hm hid
    · by_cases hq : q.2.any (fun n => n.id == x)
      · right
        rw [normalizeGroupStep_get, if_pos hq]
        obtain ⟨m, hm, hmx⟩ := List.any_eq_true.mp hq
        have hmem : q.2 = mem0 :=
          huniq q (List.mem_cons_self _ _) m hm (by simpa using hmx)
        rw [hmem]
      · rcases hd with h | h
        · rcases h with ⟨q', hq', m, hm, hid⟩
          rcases List.mem_cons.mp hq' with rfl | hq'G
          · exact absurd (List.any_eq_true.mpr ⟨m, hm, by simp [hid]⟩) hq
          · left
            exact ⟨q', hq'G, m, hm, hid⟩
        · right
          rw [normalizeGroupStep_get, if_neg hq]
          exact h

theorem foldl_jsAdd_map_sum (f : InternalNode → ℚ) :
    ∀ (l : List InternalNode) (a : ℚ),
    l.foldl (fun s n => jsAdd s (f n)) a = a + (l.map f).sum := by
  intro l
  induction l with
  | nil =>
    intro a
    simp
  | cons n l ih =>
    intro a
    rw [List.foldl_cons, ih, jsAdd_eq, List.map_cons, List.sum_cons]
    ring

theorem clusterValue_multi (degree : JMap ℚ) (mem : List InternalNode) (x : String)
    (h : mem.length ≠ 1) :
    clusterValue degree mem x =
      ((mem.map (fun m => (jget degree m.id).getD 0)).sum) / (mem.length : ℚ) := by
  rw [clusterValue, if_neg h, jsDiv_eq, foldl_jsAdd_map_sum, zero_add]

theorem mem_recordCluster {l : List InternalNode} {ip : String} {m : InternalNode} :
    m ∈ recordCluster l ip ↔
      m ∈ l ∧ ∃ r, m.record = some r ∧ normalizeIp r.ip = ip := by
  rw [recordCluster, List.mem_filter]
  constructor
  · rintro ⟨hm, hp⟩
    refine ⟨hm, ?_⟩
    cases hr : m.record with
    | none => rw [hr] at hp; cases hp
    | some r =>
      rw [hr] at hp
      exact ⟨r, rfl, by simpa using hp⟩
  · rintro ⟨hm, r, hr, hip⟩
    refine ⟨hm, ?_⟩
    rw [hr]
    simpa using hip

/-- **C6.** Address-cluster degree normalization (`normalizeClusterDegrees`,
atlasBuilder.ts lines 463–525): provided node ids are duplicate-free and no
stub id collides with a record node's normalized address (both hold for the
maps `buildGraph` produces, whose nodes are keyed by id), every record node in
an address cluster of size ≥ 2 receives the cluster's average raw degree
(sum of members' raw degrees divided by cluster size), every record node in a
singleton cluster keeps its raw degree, and every stub node keeps its raw
degree. -/
theorem C6_cluster_degree_normalization (nodes : JMap InternalNode) (degree : JMap ℚ)
    (Hnd : ((jvalues nodes).map (·.id)).Nodup)
    (Hcol : ∀ s ∈ jvalues nodes, s.record = none → ∀ f ∈ jvalues nodes, ∀ r,
      f.record = some r → s.id ≠ normalizeIp r.ip) :
    (∀ n ∈ jvalues nodes, ∀ r, n.record = some r →
      (2 ≤ (recordCluster (jvalues nodes) (normalizeIp r.ip)).length →
        jget (normalizeClusterDegrees nodes degree) n.id =
          some (((recordCluster (jvalues nodes) (normalizeIp r.ip)).map
              (fun m => (jget degree m.id).getD 0)).sum /
            ((recordCluster (jvalues nodes) (normalizeIp r.ip)).length : ℚ))) ∧
      ((recordCluster (jvalues nodes) (normalizeIp r.ip)).length = 1 →
        jget (normalizeClusterDegrees nodes degree) n.id =
          some ((jget degree n.id).getD 0))) ∧
    (∀ s ∈ jvalues nodes, s.record = none →
      jget (normalizeClusterDegrees nodes degree) s.id =
        some ((jget degree s.id).getD 0)) := by
  have hspec := ipGroupsOf_spec nodes Hnd Hcol
  have hkeysnd : (jkeys (ipGroupsOf nodes)).Nodup := jkeys_groupsGo_nodup (jvalues nodes)
  have hqval : ∀ q ∈ ipGroupsOf nodes, (∀ m ∈ q.2, m ∈ jvalues nodes) ∧
      (q.2 = recordCluster (jvalues nodes) q.1 ∨
       ∃ s, stubAt (jvalues nodes) q.1 = some s ∧ q.2 = [s]) := by
    intro q hq
    have hget : jget (ipGroupsOf nodes) q.1 = some q.2 :=
      mem_jget _ _ _ hkeysnd hq
    rw [hspec q.1] at hget
    by_cases hc : recordCluster (jvalues nodes) q.1 = []
    · rw [if_pos hc] at hget
      cases hs : stubAt (jvalues nodes) q.1 with
      | none =>
        rw [hs] at hget
        simp at hget
      | some s =>
        rw [hs, Option.map_some'] at hget
        have hq2 : q.2 = [s] := by
          injection hget with h
          exact h.symm
        refine ⟨?_, Or.inr ⟨s, rfl, hq2⟩⟩
        intro m hm
        rw [hq2, List.mem_singleton] at hm
        subst hm
        exact List.mem_of_find?_eq_some hs
    · rw [if_neg hc] at hget
      have hq2 : q.2 = recordCluster (jvalues nodes) q.1 := by
        injection hget with h
        exact h.symm
      refine ⟨?_, Or.inl hq2⟩
      intro m hm
      rw [hq2] at hm
      exact (mem_recordCluster.mp hm).1
  have huniqR : ∀ n ∈ jvalues nodes, ∀ r, n.record = some r →
      ∀ q ∈ ipGroupsOf nodes, ∀ m ∈ q.2, m.id = n.id →
        q.2 = recordCluster (jvalues nodes) (normalizeIp r.ip) := by
    intro n hn r hr q hq m hm hid
    obtain ⟨hval, hform⟩ := hqval q hq
    have hmn : m = n := nodupIds_ne Hnd (hval m hm) hn hid
    subst hmn
    rcases hform with hrec | ⟨s, hs, hq2⟩
    · obtain ⟨-, r', hr', hip⟩ := mem_recordCluster.mp (hrec ▸ hm)
      rw [hr] at hr'
      injection hr' with h'
      subst h'
      rw [hrec, hip]
    · exfalso
      rw [hq2, List.mem_singleton] at hm
      have hpred := List.find?_some hs
      rw [Bool.and_eq_true] at hpred
      have hsn : s.record = none := Option.isNone_iff_eq_none.mp hpred.1
      rw [← hm, hr] at hsn
      cases hsn
  have huniqS : ∀ s ∈ jvalues nodes, s.record = none →
      ∀ q ∈ ipGroupsOf nodes, ∀ m ∈ q.2, m.id = s.id → q.2 = [s] := by
    intro s hsV hsr q hq m hm hid
    obtain ⟨hval, hform⟩ := hqval q hq
    have hmn : m = s := nodupIds_ne Hnd (hval m hm) hsV hid
    subst hmn
    rcases hform with hrec | ⟨s', hs', hq2⟩
    · exfalso
      obtain ⟨-, r', hr', -⟩ := mem_recordCluster.mp (hrec ▸ hm)
      rw [hsr] at hr'
      cases hr'
    · rw [hq2, List.mem_singleton] at hm
      rw [hq2, ← hm]
  have hexR : ∀ n ∈ jvalues nodes, ∀ r, n.record = some r →
      (normalizeIp r.ip, recordCluster (jvalues nodes) (normalizeIp r.ip)) ∈
        ipGroupsOf nodes ∧
      n ∈ recordCluster (jvalues nodes) (normalizeIp r.ip) := by
    intro n hn r hr
    have hnC : n ∈ recordCluster (jvalues nodes) (normalizeIp r.ip) :=
      mem_recordCluster.mpr ⟨hn, r, hr, rfl⟩
    have hne : recordCluster (jvalues nodes) (normalizeIp r.ip) ≠ [] :=
      List.ne_nil_of_mem hnC
    have hget := hspec (normalizeIp r.ip)
    rw [if_neg hne] at hget
    exact ⟨jget_mem _ _ _ hget, hnC⟩
  have hexS : ∀ s ∈ jvalues nodes, s.record = none →
      (s.id, [s]) ∈ ipGroupsOf nodes := by
    intro s hsV hsr
    have hcl : recordCluster (jvalues nodes) s.id = [] := by
      rw [List.eq_nil_iff_forall_not_mem]
      intro f hf
      obtain ⟨hfV, r', hr', hip⟩ := mem_recordCluster.mp hf
      exact Hcol s hsV hsr f hfV r' hr' hip.symm
    have hget := hspec s.id
    rw [if_pos hcl, stubAt] at hget
    cases hfind : List.find? (fun n => n.record.isNone && n.id == s.id)
        (jvalues nodes) with
    | none =>
      exfalso
      rw [List.find?_eq_none] at hfind
      exact (hfind s hsV) (by simp [hsr])
    | some s' =>
      rw [hfind, Option.map_some'] at hget
      have hpred := List.find?_some hfind
      rw [Bool.and_eq_true, beq_iff_eq] at hpred
      have hs'V : s' ∈ jvalues nodes := List.mem_of_find?_eq_some hfind
      have hss : s' = s := nodupIds_ne Hnd hs'V hsV hpred.2
      rw [hss] at hget
      exact jget_mem _ _ _ hget
  constructor
  · intro n hn r hr
    have hval := normalize_fold_get degree n.id
      (recordCluster (jvalues nodes) (normalizeIp r.ip)) (ipGroupsOf nodes) []
      (fun q hq m hm hid => huniqR n hn r hr q hq m hm hid)
      (Or.inl ⟨(normalizeIp r.ip, recordCluster (jvalues nodes) (normalizeIp r.ip)),
        (hexR n hn r hr).1, n, (hexR n hn r hr).2, rfl⟩)
    constructor
    · intro hlen
      rw [normalizeClusterDegrees, hval, clusterValue_multi degree _ _ (by omega)]
    · intro hlen
      rw [normalizeClusterDegrees, hval, clusterValue, if_pos hlen]
  · intro s hsV hsr
    have hval := normalize_fold_get degree s.id [s] (ipGroupsOf nodes) []
      (fun q hq m hm hid => huniqS s hsV hsr q hq m hm hid)
      (Or.inl ⟨(s.id, [s]), hexS s hsV hsr, s, List.mem_singleton_self s, rfl⟩)
    rw [normalizeClusterDegrees, hval, clusterValue, if_pos (by simp)]

/-! Concrete cluster for the spec's {2, 4, 6} example: three record nodes on
one host at three ports. -/

def exRecF1 : FluxNodeRecord :=
  { collateral := "N1", ip := "7.7.7.7:16127", tier := "CUMULUS" }

def exRecF2 : FluxNodeRecord :=
  { collateral := "N2", ip := "7.7.7.7:16137", tier := "CUMULUS" }

def exRecF3 : FluxNodeRecord :=
  { collateral := "N3", ip := "7.7.7.7:16147", tier := "CUMULUS" }

def exN1 : InternalNode :=
  { id := "N1", kind := NodeKind.flux, tier := NodeTier.CUMULUS,
    status := NodeStatus.LEGACY, arcane := none, record := some exRecF1,
    bandwidth := none }

def exN2 : InternalNode :=
  { id := "N2", kind := NodeKind.flux, tier := NodeTier.CUMULUS,
    status := NodeStatus.LEGACY, arcane := none, record := some exRecF2,
    bandwidth := none }

def exN3 : InternalNode :=
  { id := "N3", kind := NodeKind.flux, tier := NodeTier.CUMULUS,
    status := NodeStatus.LEGACY, arcane := none, record := some exRecF3,
    bandwidth := none }

def exNodes246 : JMap InternalNode := [("N1", exN1), ("N2", exN2), ("N3", exN3)]

def exDeg246 : JMap ℚ := [("N1", 2), ("N2", 4), ("N3", 6)]

/-- C6 at the spec's own example: a three-node address cluster with raw
degrees {2, 4, 6} normalizes the first member's degree to 4. -/
theorem C6_cluster_degree_normalization_witness :
    exN1 ∈ jvalues exNodes246 ∧ exN1.record = some exRecF1 ∧
    2 ≤ (recordCluster (jvalues exNodes246) (normalizeIp exRecF1.ip)).length ∧
    jget (normalizeClusterDegrees exNodes246 exDeg246) "N1" = some 4 := by
  have hcol : ∀ s ∈ jvalues exNodes246, s.record = none → ∀ f ∈ jvalues exNodes246,
      ∀ r, f.record = some r → s.id ≠ normalizeIp r.ip := by
    intro s hs hrec
    exfalso
    have hv : jvalues exNodes246 = [exN1, exN2, exN3] := rfl
    rw [hv, List.mem_cons, List.mem_cons, List.mem_singleton] at hs
    rcases hs with rfl | rfl | rfl <;>
      simp [exN1, exN2, exN3] at hrec
  have h := ((C6_cluster_degree_normalization exNodes246 exDeg246 (by decide) hcol).1
    exN1 (by decide) exRecF1 (by decide)).1 (by decide)
  refine ⟨by decide, by decide, by decide, ?_⟩
  have hC : recordCluster (jvalues exNodes246) (normalizeIp exRecF1.ip) =
      [exN1, exN2, exN3] := by decide
  have hm : ([exN1, exN2, exN3].map (fun m => (jget exDeg246 m.id).getD 0)) =
      [2, 4, 6] := by decide
  have hid : exN1.id = "N1" := rfl
  rw [hid] at h
  rw [h, hC, hm]
  norm_num

/-! ### C7: monotonicity of the hub threshold in any one raw degree -/

theorem insertBy_sorted (x : ℚ) (l : List ℚ) (h : l.Pairwise (· ≤ ·)) :
    (insertBy (fun a b => decide (a < b)) x l).Pairwise (· ≤ ·) := by
  induction l with
  | nil => simp [insertBy]
  | cons y ys ih =>
    rw [List.pairwise_cons] at h
    rw [insertBy]
    by_cases hlt : y < x
    · rw [if_pos (decide_eq_true hlt)]
      rw [List.pairwise_cons]
      constructor
      · intro a ha
        rcases List.mem_cons.mp ((insertBy_perm _ x ys).mem_iff.mp ha) with rfl | hmem
        · exact le_of_lt hlt
        · exact h.1 a hmem
      · exact ih h.2
    · rw [if_neg (by simpa using hlt)]
      have hxy : x ≤ y := le_of_not_lt hlt
      rw [List.pairwise_cons]
      exact ⟨fun a ha => (List.mem_cons.mp ha).elim (fun hh => hh ▸ hxy)
        (fun hmem => hxy.trans (h.1 a hmem)), List.pairwise_cons.mpr h⟩

theorem stableSortBy_sorted (l : List ℚ) :
    (stableSortBy (fun a b => decide (a < b)) l).Pairwise (· ≤ ·) := by
  induction l with
  | nil => simp [stableSortBy]
  | cons x xs ih => exact insertBy_sorted x _ ih

theorem getD_mem_of_lt {l : List ℚ} {i : Nat} (h : i < l.length) : l.getD i 0 ∈ l := by
  induction l generalizing i with
  | nil => simp at h
  | cons a t ih =>
    cases i with
    | zero => exact List.mem_cons_self _ _
    | succ j => exact List.mem_cons_of_mem _ (ih (by simpa using h))

theorem getD_zero_of_le {l : List ℚ} {i : Nat} (h : l.length ≤ i) : l.getD i 0 = 0 := by
  induction l generalizing i with
  | nil => cases i <;> rfl
  | cons a t ih =>
    cases i with
    | zero => simp at h
    | succ j => exact ih (by simpa using h)

theorem sorted_getD_le_countP (q : ℚ) :
    ∀ (s : List ℚ) (i : Nat), s.Pairwise (· ≤ ·) → i < s.length →
    s.getD i 0 ≤ q → i + 1 ≤ s.countP (fun y => decide (y ≤ q)) := by
  intro s
  induction s with
  | nil =>
    intro i _ hi
    simp at hi
  | cons a t ih =>
    intro i hs hi hle
    rw [List.pairwise_cons] at hs
    cases i with
    | zero =>
      rw [List.countP_cons, if_pos (by simpa using hle)]
      omega
    | succ j =>
      have hj : j < t.length := by simpa using hi
      have hle' : t.getD j 0 ≤ q := hle
      have hcount := ih j hs.2 hj hle'
      rw [List.countP_cons]
      have ha : a ≤ q := (hs.1 _ (getD_mem_of_lt hj)).trans hle'
      rw [if_pos (by simpa using ha)]
      omega

theorem countP_le_sorted_getD (q : ℚ) :
    ∀ (s : List ℚ) (i : Nat), s.Pairwise (· ≤ ·) → i < s.length →
    i + 1 ≤ s.countP (fun y => decide (y ≤ q)) → s.getD i 0 ≤ q := by
  intro s
  induction s with
  | nil =>
    intro i _ hi
    simp at hi
  | cons a t ih =>
    intro i hs hi hcount
    rw [List.pairwise_cons] at hs
    cases i with
    | zero =>
      by_contra ha
      push_neg at ha
      have h0 : (a :: t).countP (fun y => decide (y ≤ q)) = 0 := by
        rw [List.countP_eq_zero]
        intro y hy
        rcases List.mem_cons.mp hy with rfl | hmem
        · simpa using not_le_of_lt ha
        · have hay : a ≤ y := hs.1 y hmem
          simp only [decide_eq_true_eq]
          intro hyq
          exact absurd (hay.trans hyq) (not_le_of_lt ha)
      rw [h0] at hcount
      omega
    | succ j =>
      have hj : j < t.length := by simpa using hi
      rw [List.countP_cons] at hcount
      have hcount' : j + 1 ≤ t.countP (fun y => decide (y ≤ q)) := by
        by_cases ha : (decide (a ≤ q)) = true
        · rw [if_pos ha] at hcount
          omega
        · rw [if_neg ha] at hcount
          omega
      exact ih j hs.2 hj hcount'

theorem countP_le_of_forall2 (q : ℚ) {u u' : List ℚ} (h : List.Forall₂ (· ≤ ·) u u') :
    u'.countP (fun y => decide (y ≤ q)) ≤ u.countP (fun y => decide (y ≤ q)) := by
  induction h with
  | nil => simp
  | @cons a b l1 l2 hab htail ih =>
    rw [List.countP_cons, List.countP_cons]
    by_cases hb : b ≤ q
    · rw [if_pos (by simpa using hb), if_pos (by simpa using hab.trans hb)]
      omega
    · rw [if_neg (by simpa using hb)]
      by_cases ha : a ≤ q
      · rw [if_pos (by simpa using ha)]
        omega
      · rw [if_neg (by simpa using ha)]
        omega

/-- Sorting is pointwise monotone: raising entries of a list (positionally)
does not lower any order statistic. -/
theorem sorted_getD_mono {u u' : List ℚ} (h : List.Forall₂ (· ≤ ·) u u') (i : Nat) :
    (stableSortBy (fun a b => decide (a < b)) u).getD i 0 ≤
      (stableSortBy (fun a b => decide (a < b)) u').getD i 0 := by
  have hlen : u.length = u'.length := h.length_eq
  have hpu := stableSortBy_perm (fun a b => decide (a < b)) u
  have hpu' := stableSortBy_perm (fun a b => decide (a < b)) u'
  have hsu := stableSortBy_sorted u
  have hsu' := stableSortBy_sorted u'
  by_cases hi : i < u.length
  · have hi1 : i < (stableSortBy (fun a b => decide (a < b)) u).length := by
      rw [hpu.length_eq]
      exact hi
    have hi2 : i < (stableSortBy (fun a b => decide (a < b)) u').length := by
      rw [hpu'.length_eq, ← hlen]
      exact hi
    have h1 := sorted_getD_le_countP
      ((stableSortBy (fun a b => decide (a < b)) u').getD i 0) _ i hsu' hi2 le_rfl
    rw [hpu'.countP_eq] at h1
    have h2 := countP_le_of_forall2
      ((stableSortBy (fun a b => decide (a < b)) u').getD i 0) h
    rw [← hpu.countP_eq] at h2
    exact countP_le_sorted_getD _ _ i hsu hi1 (le_trans h1 h2)
  · rw [getD_zero_of_le (by rw [hpu.length_eq]; omega),
      getD_zero_of_le (by rw [hpu'.length_eq]; omega)]

/-- Positionwise order on degree / centrality maps: same keys in the same
order, each value no larger on the right. -/
def QRel (m m' : JMap ℚ) : Prop :=
  List.Forall₂ (fun p q => p.1 = q.1 ∧ p.2 ≤ q.2) m m'

theorem qrel_keys {m m' : JMap ℚ} (h : QRel m m') : jkeys m = jkeys m' := by
  induction h with
  | nil => rfl
  | @cons p q l1 l2 hpq htail ih =>
    simp only [jkeys, List.map_cons] at *
    rw [hpq.1, ih]

theorem qrel_jget {m m' : JMap ℚ} (h : QRel m m') (k : String) :
    (jget m k = none ∧ jget m' k = none) ∨
    (∃ a b, jget m k = some a ∧ jget m' k = some b ∧ a ≤ b) := by
  induction h with
  | nil => exact Or.inl ⟨rfl, rfl⟩
  | @cons p q l1 l2 hpq htail ih =>
    rw [jget, jget]
    by_cases hk : p.1 = k
    · rw [if_pos hk, if_pos (by rw [← hpq.1]; exact hk)]
      exact Or.inr ⟨p.2, q.2, rfl, rfl, hpq.2⟩
    · rw [if_neg hk, if_neg (by rw [← hpq.1]; exact hk)]
      exact ih

theorem qrel_getD {m m' : JMap ℚ} (h : QRel m m') (k : String) :
    (jget m k).getD 0 ≤ (jget m' k).getD 0 := by
  rcases qrel_jget h k with ⟨h1, h2⟩ | ⟨a, b, h1, h2, hle⟩
  · rw [h1, h2]
  · rw [h1, h2]
    exact hle

theorem qrel_jhas {m m' : JMap ℚ} (h : QRel m m') (k : String) :
    jhas m k = jhas m' k := by
  have hkeys := qrel_keys h
  rw [Bool.eq_iff_iff, jhas_iff_mem_keys, jhas_iff_mem_keys, hkeys]

theorem qrel_jreplace {m m' : JMap ℚ} (h : QRel m m') (k : String) {v v' : ℚ}
    (hv : v ≤ v') : QRel (jreplace m k v) (jreplace m' k v') := by
  induction h with
  | nil => exact List.Forall₂.nil
  | @cons p q l1 l2 hpq htail ih =>
    rw [jreplace, jreplace]
    by_cases hk : p.1 = k
    · rw [if_pos hk, if_pos (by rw [← hpq.1]; exact hk)]
      exact List.Forall₂.cons ⟨rfl, hv⟩ ih
    · rw [if_neg hk, if_neg (by rw [← hpq.1]; exact hk)]
      exact List.Forall₂.cons hpq ih

theorem qrel_jset {m m' : JMap ℚ} (h : QRel m m') (k : String) {v v' : ℚ}
    (hv : v ≤ v') : QRel (jset m k v) (jset m' k v') := by
  rw [jset, jset, qrel_jhas h k]
  by_cases hh : jhas m' k = true
  · rw [if_pos hh, if_pos hh]
    exact qrel_jreplace h k hv
  · rw [if_neg hh, if_neg hh]
    exact List.rel_append h (List.Forall₂.cons ⟨rfl, hv⟩ List.Forall₂.nil)

theorem qrel_normalizeGroupStep {d d' : JMap ℚ}
    (hd : ∀ k, (jget d k).getD 0 ≤ (jget d' k).getD 0)
    {nd nd' : JMap ℚ} (h : QRel nd nd') (p : String × List InternalNode) :
    QRel (normalizeGroupStep d nd p) (normalizeGroupStep d' nd' p) := by
  unfold normalizeGroupStep
  dsimp only
  by_cases hl : p.2.length = 1
  · rw [if_pos hl, if_pos hl]
    obtain ⟨n, hn⟩ := List.length_eq_one.mp hl
    rw [hn]
    exact qrel_jset h _ (hd n.id)
  · rw [if_neg hl, if_neg hl]
    have hsum : ∀ (l : List InternalNode) (a a' : ℚ), a ≤ a' →
        l.foldl (fun s n => jsAdd s ((jget d n.id).getD 0)) a ≤
        l.foldl (fun s n => jsAdd s ((jget d' n.id).getD 0)) a' := by
      intro l
      induction l with
      | nil =>
        intro a a' ha
        simpa using ha
      | cons n l ih =>
        intro a a' ha
        rw [List.foldl_cons, List.foldl_cons]
        refine ih _ _ ?_
        rw [jsAdd_eq, jsAdd_eq]
        exact add_le_add ha (hd n.id)
    have hdiv : jsDiv (p.2.foldl (fun s n => jsAdd s ((jget d n.id).getD 0)) 0)
        ((p.2.length : ℚ)) ≤
        jsDiv (p.2.foldl (fun s n => jsAdd s ((jget d' n.id).getD 0)) 0)
        ((p.2.length : ℚ)) := by
      rw [jsDiv_eq, jsDiv_eq]
      rcases Nat.eq_zero_or_pos p.2.length with h0 | h0
      · rw [h0]
        norm_num
      · have hc : (0 : ℚ) < (p.2.length : ℚ) := by exact_mod_cast h0
        exact (div_le_div_right hc).mpr (hsum p.2 0 0 le_rfl)
    have hfold : ∀ (l : List InternalNode) (acc acc' : JMap ℚ), QRel acc acc' →
        QRel (l.foldl (fun nd n => jset nd n.id
            (jsDiv (p.2.foldl (fun s m => jsAdd s ((jget d m.id).getD 0)) 0)
              ((p.2.length : ℚ)))) acc)
          (l.foldl (fun nd n => jset nd n.id
            (jsDiv (p.2.foldl (fun s m => jsAdd s ((jget d' m.id).getD 0)) 0)
              ((p.2.length : ℚ)))) acc') := by
      intro l
      induction l with
      | nil =>
        intro acc acc' ha
        exact ha
      | cons n l ih =>
        intro acc acc' ha
        rw [List.foldl_cons, List.foldl_cons]
        exact ih _ _ (qrel_jset ha _ hdiv)
    exact hfold p.2 nd nd' h

theorem qrel_normalizeClusterDegrees (nodes : JMap InternalNode) {d d' : JMap ℚ}
    (hd : ∀ k, (jget d k).getD 0 ≤ (jget d' k).getD 0) :
    QRel (normalizeClusterDegrees nodes d) (normalizeClusterDegrees nodes d') := by
  rw [normalizeClusterDegrees, normalizeClusterDegrees]
  have hfold : ∀ (G : List (String × List InternalNode)) (acc acc' : JMap ℚ),
      QRel acc acc' →
      QRel (G.foldl (normalizeGroupStep d) acc) (G.foldl (normalizeGroupStep d') acc') := by
    intro G
    induction G with
    | nil =>
      intro acc acc' ha
      exact ha
    | cons p G ih =>
      intro acc acc' ha
      rw [List.foldl_cons, List.foldl_cons]
      exact ih _ _ (qrel_normalizeGroupStep hd ha p)
  exact hfold (ipGroupsOf nodes) [] [] List.Forall₂.nil

theorem qrel_computeCentrality {nd nd' : JMap ℚ} (h : QRel nd nd') (t : Nat) :
    QRel (computeCentrality nd t) (computeCentrality nd' t) := by
  rw [computeCentrality, computeCentrality]
  have hdivisor : (0 : ℚ) < jsMax 1 (jsSub (t : ℚ) 1) := by
    rw [jsMax]
    by_cases hc : (1 : ℚ) ≤ jsSub (t : ℚ) 1
    · rw [if_pos hc]
      linarith
    · rw [if_neg hc]
      norm_num
  have hfold : ∀ {l l' : JMap ℚ}, List.Forall₂ (fun p q => p.1 = q.1 ∧ p.2 ≤ q.2) l l' →
      ∀ (acc acc' : JMap ℚ), QRel acc acc' →
      QRel (l.foldl (fun c p => jset c p.1 (jsDiv p.2 (jsMax 1 (jsSub (t : ℚ) 1)))) acc)
        (l'.foldl (fun c p => jset c p.1 (jsDiv p.2 (jsMax 1 (jsSub (t : ℚ) 1)))) acc') := by
    intro l l' hll
    induction hll with
    | nil =>
      intro acc acc' ha
      exact ha
    | @cons p q l1 l2 hpq htail ih =>
      intro acc acc' ha
      rw [List.foldl_cons, List.foldl_cons, hpq.1]
      refine ih _ _ (qrel_jset ha _ ?_)
      rw [jsDiv_eq, jsDiv_eq]
      exact (div_le_div_right hdivisor).mpr hpq.2
  exact hfold h [] [] List.Forall₂.nil

theorem qrel_computeHubThreshold (nodes : JMap InternalNode) {c c' : JMap ℚ}
    (h : QRel c c') :
    computeHubThreshold nodes c ≤ computeHubThreshold nodes c' := by
  rw [computeHubThreshold, computeHubThreshold]
  have hf2 : ∀ (l : List InternalNode),
      List.Forall₂ (· ≤ ·) (l.map (fun n => (jget c n.id).getD 0))
        (l.map (fun n => (jget c' n.id).getD 0)) := by
    intro l
    induction l with
    | nil => exact List.Forall₂.nil
    | cons n l ih => exact List.Forall₂.cons (qrel_getD h n.id) ih
  set l := (jvalues nodes).filter (fun n => n.kind == NodeKind.flux) with hl
  have hlen1 : (stableSortBy (fun a b => decide (a < b))
      (l.map (fun n => (jget c n.id).getD 0))).length = l.length := by
    rw [(stableSortBy_perm _ _).length_eq, List.length_map]
  have hlen2 : (stableSortBy (fun a b => decide (a < b))
      (l.map (fun n => (jget c' n.id).getD 0))).length = l.length := by
    rw [(stableSortBy_perm _ _).length_eq, List.length_map]
  rw [hlen1, hlen2]
  by_cases h0 : l.length = 0
  · rw [if_pos h0, if_pos h0]
  · rw [if_neg h0, if_neg h0]
    exact sorted_getD_mono (hf2 l) _

/-- The hub threshold as `buildArtifacts` computes it from the raw degree map
(lines 955–958): cluster normalization, then centrality, then the 90th
percentile of primary-node centralities. -/
def hubThresholdOf (nodes : JMap InternalNode) (degree : JMap ℚ) : ℚ :=
  computeHubThreshold nodes
    (computeCentrality (normalizeClusterDegrees nodes degree) (jsize nodes))

/-- **C7.** Hub threshold monotonicity: raising one node's raw degree (to any
value at least its old effective value), holding all others fixed, never
lowers the hub threshold computed through cluster normalization, centrality
division and the sorted 90th-percentile pick. -/
theorem C7_hub_threshold_monotone (nodes : JMap InternalNode) (degree : JMap ℚ)
    (v : String) (x : ℚ) (hx : (jget degree v).getD 0 ≤ x) :
    hubThresholdOf nodes degree ≤ hubThresholdOf nodes (jset degree v x) := by
  have hd : ∀ k, (jget degree k).getD 0 ≤ (jget (jset degree v x) k).getD 0 := by
    intro k
    by_cases hk : k = v
    · rw [hk, jget_jset_self]
      exact hx
    · rw [jget_jset_ne _ _ _ _ hk]
  rw [hubThresholdOf, hubThresholdOf]
  exact qrel_computeHubThreshold nodes
    (qrel_computeCentrality (qrel_normalizeClusterDegrees nodes hd) (jsize nodes))

/-- C7 instantiated: raising N1's raw degree from 2 to 10 in the concrete
three-node cluster does not lower the hub threshold. -/
theorem C7_hub_threshold_monotone_witness :
    (jget exDeg246 "N1").getD 0 ≤ 10 ∧
    hubThresholdOf exNodes246 exDeg246 ≤
      hubThresholdOf exNodes246 (jset exDeg246 "N1" 10) := by
  refine ⟨by decide, ?_⟩
  exact C7_hub_threshold_monotone exNodes246 exDeg246 "N1" 10 (by decide)

/-! ### C10: the hub count is positive whenever a primary node exists -/

/-- When at least one primary node exists, the hub threshold is one of the
primary nodes' own centrality values (the sorted list's element at the
percentile index). -/
theorem computeHubThreshold_mem (nodes : JMap InternalNode) (centrality : JMap ℚ)
    (h0 : ((jvalues nodes).filter (fun n => n.kind == NodeKind.flux)) ≠ []) :
    computeHubThreshold nodes centrality ∈
      ((jvalues nodes).filter (fun n => n.kind == NodeKind.flux)).map
        (fun n => (jget centrality n.id).getD 0) := by
  rw [computeHubThreshold]
  set u := ((jvalues nodes).filter (fun n => n.kind == NodeKind.flux)).map
      (fun n => (jget centrality n.id).getD 0) with hu
  have hulen : 0 < u.length := by
    rw [hu, List.length_map]
    exact List.length_pos.mpr h0
  have hsort := stableSortBy_perm (fun a b => decide (a < b)) u
  have hslen := hsort.length_eq
  rw [if_neg (by omega)]
  rw [← hsort.mem_iff]
  apply getD_mem_of_lt
  rw [hslen]
  refine (Nat.div_lt_iff_lt_mul (by norm_num)).mpr ?_
  omega

/-- **C10.** Whenever the node map holds at least one primary (`flux`) node,
the statistics' hub count is at least one: the hub threshold equals some
primary node's centrality, and that node passes its own threshold. -/
theorem C10_hub_count_positive (nodes : JMap InternalNode) (edges : JMap InternalEdge)
    (rawEdgeCount buildDurationMs : Nat) (centrality : JMap ℚ) (cfg : Config)
    (n : InternalNode) (hn : n ∈ jvalues nodes) (hk : n.kind = NodeKind.flux) :
    1 ≤ (computeStats nodes edges rawEdgeCount buildDurationMs
      (computeHubThreshold nodes centrality) centrality cfg).hubCount := by
  have h0 : (jvalues nodes).filter (fun m => m.kind == NodeKind.flux) ≠ [] :=
    List.ne_nil_of_mem (List.mem_filter.mpr ⟨hn, by simp [hk]⟩)
  obtain ⟨f, hf, hft⟩ := List.mem_map.mp (computeHubThreshold_mem nodes centrality h0)
  have hmem2 : f ∈ (jvalues nodes).filter (fun m => m.kind == NodeKind.flux &&
      decide (computeHubThreshold nodes centrality ≤ (jget centrality m.id).getD 0)) := by
    apply List.mem_filter.mpr
    refine ⟨(List.mem_filter.mp hf).1, ?_⟩
    rw [Bool.and_eq_true]
    refine ⟨(List.mem_filter.mp hf).2, ?_⟩
    rw [hft]
    simp
  exact List.length_pos_of_mem hmem2

/-- C10 instantiated on the three-primary-node map (with its degree map read
as a centrality map). -/
theorem C10_hub_count_positive_witness :
    exN1 ∈ jvalues exNodes246 ∧ exN1.kind = NodeKind.flux ∧
    1 ≤ (computeStats exNodes246 [] 0 0
      (computeHubThreshold exNodes246 exDeg246) exDeg246 exCfg).hubCount :=
  ⟨by decide, by decide,
    C10_hub_count_positive exNodes246 [] 0 0 exDeg246 exCfg exN1 (by decide) (by decide)⟩

/-! ### C8: failure atomicity of `AtlasBuilder.refresh` (lines 1039–1099)

The builder's externally visible state is `this.state`; the fallible pipeline
(`fetchFluxNodeList` / `fetchPeerData` / `buildArtifacts`) is modelled as an
`Except` outcome, and `refreshTrace` records, in order, every value assigned
to `this.state` during one `refresh()` call together with the final builder
fields. -/

/-- `AtlasState` (`building`, optional `data`, optional `error`),
parametrised by the build payload type. -/
structure AtlasState' (β : Type) where
  building : Bool
  data : Option β
  error : Option String
  deriving DecidableEq, Repr

/-- The builder's two mutable fields: `state` and `lastCompletedBuild`. -/
structure BuilderState (β : Type) where
  state : AtlasState' β
  lastCompletedBuild : Option β
  deriving DecidableEq, Repr

/-- One `refresh()` call: first `state` becomes
`{ building: true, data: lastCompletedBuild }`; on success the completed
build is stored in both fields; on a thrown error the catch block keeps
`lastCompletedBuild` and records the message.  Returns the list of states
assigned (the externally observable sequence) and the final fields. -/
def refreshTrace {β : Type} (b : BuilderState β) (outcome : Except String β) :
    List (AtlasState' β) × BuilderState β :=
  let during : AtlasState' β := ⟨true, b.lastCompletedBuild, none⟩
  match outcome with
  | .ok build =>
      ([during, ⟨false, some build, none⟩],
       ⟨⟨false, some build, none⟩, some build⟩)
  | .error msg =>
      ([during, ⟨false, b.lastCompletedBuild, some msg⟩],
       ⟨⟨false, b.lastCompletedBuild, some msg⟩, b.lastCompletedBuild⟩)

/-- **C8.** Failure atomicity of a build: when the pipeline throws, the last
completed build is kept unchanged with the error recorded alongside it, every
state exposed during the failed refresh shows only the last completed build,
and even during a successful refresh the only data ever exposed is the last
completed build or the fully completed new one — never a partial build. -/
theorem C8_refresh_failure_atomicity {β : Type} (b : BuilderState β) (msg : String) :
    (refreshTrace b (Except.error msg)).2.lastCompletedBuild = b.lastCompletedBuild ∧
    (refreshTrace b (Except.error msg)).2.state =
      ⟨false, b.lastCompletedBuild, some msg⟩ ∧
    (∀ s ∈ (refreshTrace b (Except.error msg)).1, s.data = b.lastCompletedBuild) ∧
    (∀ bu : β, ∀ s ∈ (refreshTrace b (Except.ok bu)).1,
      s.data = b.lastCompletedBuild ∨ s.data = some bu) := by
  refine ⟨rfl, rfl, ?_, ?_⟩
  · intro s hs
    rcases List.mem_cons.mp hs with rfl | hs
    · rfl
    · rcases List.mem_cons.mp hs with rfl | hs
      · rfl
      · cases hs
  · intro bu s hs
    rcases List.mem_cons.mp hs with rfl | hs
    · exact Or.inl rfl
    · rcases List.mem_cons.mp hs with rfl | hs
      · exact Or.inr rfl
      · cases hs

/-! ### C9: layout and the normalize step (`atlasBuilder.ts` lines 527–738) -/

inductive LayoutStrategy | force | seeded
  deriving DecidableEq, Repr

structure LayoutResult where
  positions : JMap Position
  bounds : Bounds
  strategy : LayoutStrategy
  deriving DecidableEq, Repr

/-- JS `let m = Infinity; xs.forEach(x => { if (x < m) m = x })` over a
nonempty collection equals the running minimum started from the first value.
The `[]` case stands for the JS `Infinity` sentinel; the source only applies
the fold to nonempty position maps (`applyLayout` returns early when the node
map is empty), and every theorem below is vacuous for an empty map. -/
def qMinList : List ℚ → ℚ
  | [] => 0
  | x :: xs => xs.foldl jsMin x

/-- JS running maximum from `-Infinity`; see `qMinList`. -/
def qMaxList : List ℚ → ℚ
  | [] => 0
  | x :: xs => xs.foldl jsMax x

/-- The min/max sweep over a position map's values, as both passes of
`normalizePositions` (lines 539–548 and 566–576) perform it. -/
def boundsOf (m : JMap Position) : Bounds :=
  { minX := qMinList ((jvalues m).map (·.x))
    maxX := qMaxList ((jvalues m).map (·.x))
    minY := qMinList ((jvalues m).map (·.y))
    maxY := qMaxList ((jvalues m).map (·.y)) }

/-- `normalizePositions` (lines 535–581): center the bounding box at the
origin, scale the larger dimension to `layoutExtent` (`maxX - minX || 1`
guards zero width), then record the bounds of the scaled positions in a
second sweep. -/
def normalizePositions (positions : JMap Position) (strategy : LayoutStrategy) :
    LayoutResult :=
  let b0 := boundsOf positions
  let width := if jsSub b0.maxX b0.minX = 0 then 1 else jsSub b0.maxX b0.minX
  let height := if jsSub b0.maxY b0.minY = 0 then 1 else jsSub b0.maxY b0.minY
  let scale := jsDiv layoutExtent (jsMax width height)
  let offsetX := jsAdd b0.minX (jsDiv width 2)
  let offsetY := jsAdd b0.minY (jsDiv height 2)
  let normalized := positions.foldl (fun m p =>
    jset m p.1 ⟨jsMul (jsSub p.2.x offsetX) scale, jsMul (jsSub p.2.y offsetY) scale⟩) []
  ⟨normalized, boundsOf normalized, strategy⟩

/-- Aggregated inter-cluster edges (lines 650–676). -/
structure ClusterEdge where
  source : String
  target : String
  weight : ℚ
  deriving DecidableEq, Repr

/-- The layout's environment-supplied ingredients, abstracted as oracles whose
outputs are arbitrary: the seeded RNG stream (`seedrandom`, read as draw
number ↦ value), the d3 force simulation (which repositions the cluster
centers), and real-valued trigonometry. -/
structure LayoutOracles where
  rng : Nat → ℚ
  sim : JMap Position → List ClusterEdge → Nat → JMap Position
  cosF : ℚ → ℚ
  sinF : ℚ → ℚ
  piQ : ℚ

/-- The `edges.forEach` loop building `clusterEdges` (lines 652–676). -/
def clusterEdgesOf (nodes : JMap InternalNode) (edges : JMap InternalEdge) :
    JMap ClusterEdge :=
  edges.foldl (fun m p =>
    match jget nodes p.2.source, jget nodes p.2.target with
    | some sn, some tn =>
      match sn.record, tn.record with
      | some sr, some tr =>
        let sourceIp := normalizeIp sr.ip
        let targetIp := normalizeIp tr.ip
        if sourceIp = targetIp then m
        else
          let k := edgeKey ("cluster_" ++ sourceIp) ("cluster_" ++ targetIp)
          match jget m k with
          | some existing =>
            jset m k { existing with weight := jsAdd existing.weight p.2.weight }
          | none =>
            jset m k ⟨"cluster_" ++ sourceIp, "cluster_" ++ targetIp, p.2.weight⟩
      | _, _ => m
    | _, _ => m) []

/-- The `ipGroups.forEach` cluster-seeding loop (lines 622–648): one cluster
center per group, seeded from two RNG draws scaled by the weight-derived
spread factor.  The accumulator carries the RNG draw counter; centers are
keyed by the group key (the source keys the equivalent `ipToClusterNode` map
by the same `ip`). -/
def seedClusters (ora : LayoutOracles) (compositeWeights : JMap ℚ)
    (groups : JMap (List InternalNode)) : JMap Position × Nat :=
  groups.foldl (fun acc q =>
    let nodesInGroup := q.2
    let aggregateWeight := nodesInGroup.foldl
      (fun sum n => jsAdd sum ((jget compositeWeights n.id).getD 0)) 0
    let weightMultiplier := jsAdd 1 (jsMul (jsDiv aggregateWeight
      ((nodesInGroup.length : ℚ))) 2)
    let spreadFactor := jsMul 6 weightMultiplier
    (jset acc.1 q.1
      ⟨jsMul (jsMul (jsSub (ora.rng acc.2) (mkRat 1 2)) layoutExtent) spreadFactor,
       jsMul (jsMul (jsSub (ora.rng (acc.2 + 1)) (mkRat 1 2)) layoutExtent) spreadFactor⟩,
     acc.2 + 2)) ([], 0)

/-- The `nodesInGroup.forEach((node, index) => …)` circle fan-out
(lines 712–719), with `clusterRadius = 6`. -/
def fanout (center : Position) (angleStep : ℚ) (cosF sinF : ℚ → ℚ) :
    Nat → List InternalNode → JMap Position → JMap Position
  | _, [], pos => pos
  | i, n :: ns, pos =>
    fanout center angleStep cosF sinF (i + 1) ns
      (jset pos n.id
        ⟨jsAdd center.x (jsMul 6 (cosF (jsMul (i : ℚ) angleStep))),
         jsAdd center.y (jsMul 6 (sinF (jsMul (i : ℚ) angleStep)))⟩)

/-- One `ipGroups.forEach` placement iteration (lines 699–720): a singleton
group sits at its cluster center, a larger group fans out in a circle of
radius 6 around it (`angleStep = 2π / size`). -/
def placeGroup (ora : LayoutOracles) (centers : JMap Position)
    (pos : JMap Position) (gk : String) : List InternalNode → JMap Position
  | [n] => jset pos n.id ((jget centers gk).getD ⟨0, 0⟩)
  | nodesInGroup =>
    fanout ((jget centers gk).getD ⟨0, 0⟩)
      (jsDiv (jsMul 2 ora.piQ) ((nodesInGroup.length : ℚ)))
      ora.cosF ora.sinF 0 nodesInGroup pos

/-- The `positions` map after the placement loop. -/
def layoutPositions (ora : LayoutOracles) (centers : JMap Position)
    (groups : JMap (List InternalNode)) : JMap Position :=
  groups.foldl (fun pos q => placeGroup ora centers pos q.1 q.2) []

/-- The cluster centers after the (conditional) force simulation
(lines 679–697): the simulation runs only when there is at least one cluster
and the cluster count is within the layout node cap, for
`min(100, 30 + floor(count * 0.02))` ticks. -/
def layoutCenters (ora : LayoutOracles) (cfg : Config) (compositeWeights : JMap ℚ)
    (groups : JMap (List InternalNode)) (clusterEdges : JMap ClusterEdge) :
    JMap Position :=
  let centers0 := (seedClusters ora compositeWeights groups).1
  if 0 < jsize groups ∧ jsize groups ≤ cfg.layoutNodeCap then
    ora.sim centers0 (jvalues clusterEdges) (min 100 (30 + (2 * jsize groups) / 100))
  else centers0

/-- `applyLayout`'s main path (after the `totalNodes === 0` early return). -/
def applyLayoutCore (ora : LayoutOracles) (cfg : Config) (nodes : JMap InternalNode)
    (edges : JMap InternalEdge) (compositeWeights : JMap ℚ) : LayoutResult :=
  let ipGroups := ipGroupsOf nodes
  let centers := layoutCenters ora cfg compositeWeights ipGroups (clusterEdgesOf nodes edges)
  let positions := layoutPositions ora centers ipGroups
  let strategy := if jsize ipGroups ≤ cfg.layoutNodeCap then LayoutStrategy.force
    else LayoutStrategy.seeded
  normalizePositions positions strategy

/-- `applyLayout` (lines 583–738). -/
def applyLayout (ora : LayoutOracles) (cfg : Config) (nodes : JMap InternalNode)
    (edges : JMap InternalEdge) (compositeWeights : JMap ℚ) : LayoutResult :=
  if jsize nodes = 0 then ⟨[], ⟨0, 0, 0, 0⟩, LayoutStrategy.seeded⟩
  else applyLayoutCore ora cfg nodes edges compositeWeights

theorem jsMin_le_left (a b : ℚ) : jsMin a b ≤ a := by
  rw [jsMin]
  by_cases h : a ≤ b
  · rw [if_pos h]
  · rw [if_neg h]
    exact le_of_not_le h

theorem jsMin_le_right (a b : ℚ) : jsMin a b ≤ b := by
  rw [jsMin]
  by_cases h : a ≤ b
  · rw [if_pos h]
    exact h
  · rw [if_neg h]

theorem le_jsMax_left (a b : ℚ) : a ≤ jsMax a b := by
  rw [jsMax]
  by_cases h : a ≤ b
  · rw [if_pos h]
    exact h
  · rw [if_neg h]

theorem le_jsMax_right (a b : ℚ) : b ≤ jsMax a b := by
  rw [jsMax]
  by_cases h : a ≤ b
  · rw [if_pos h]
  · rw [if_neg h]
    exact le_of_not_le h

theorem foldl_jsMin_init : ∀ (l : List ℚ) (a : ℚ), l.foldl jsMin a ≤ a := by
  intro l
  induction l with
  | nil =>
    intro a
    exact le_rfl
  | cons y ys ih =>
    intro a
    rw [List.foldl_cons]
    exact (ih (jsMin a y)).trans (jsMin_le_left a y)

theorem foldl_jsMin_mem : ∀ (l : List ℚ) (a x : ℚ), x ∈ l → l.foldl jsMin a ≤ x := by
  intro l
  induction l with
  | nil =>
    intro a x hx
    cases hx
  | cons y ys ih =>
    intro a x hx
    rw [List.foldl_cons]
    rcases List.mem_cons.mp hx with rfl | hmem
    · exact (foldl_jsMin_init ys (jsMin a x)).trans (jsMin_le_right a x)
    · exact ih _ x hmem

theorem foldl_jsMax_init : ∀ (l : List ℚ) (a : ℚ), a ≤ l.foldl jsMax a := by
  intro l
  induction l with
  | nil =>
    intro a
    exact le_rfl
  | cons y ys ih =>
    intro a
    rw [List.foldl_cons]
    exact (le_jsMax_left a y).trans (ih (jsMax a y))

theorem foldl_jsMax_mem : ∀ (l : List ℚ) (a x : ℚ), x ∈ l → x ≤ l.foldl jsMax a := by
  intro l
  induction l with
  | nil =>
    intro a x hx
    cases hx
  | cons y ys ih =>
    intro a x hx
    rw [List.foldl_cons]
    rcases List.mem_cons.mp hx with rfl | hmem
    · exact (le_jsMax_right a x).trans (foldl_jsMax_init ys (jsMax a x))
    · exact ih _ x hmem

theorem qMinList_le {l : List ℚ} {x : ℚ} (h : x ∈ l) : qMinList l ≤ x := by
  cases l with
  | nil => cases h
  | cons y ys =>
    rw [qMinList]
    rcases List.mem_cons.mp h with rfl | hmem
    · exact foldl_jsMin_init ys x
    · exact foldl_jsMin_mem ys y x hmem

theorem le_qMaxList {l : List ℚ} {x : ℚ} (h : x ∈ l) : x ≤ qMaxList l := by
  cases l with
  | nil => cases h
  | cons y ys =>
    rw [qMaxList]
    rcases List.mem_cons.mp h with rfl | hmem
    · exact foldl_jsMax_init ys x
    · exact foldl_jsMax_mem ys y x hmem

/-- Every value of a position map lies inside that map's own min/max sweep. -/
theorem boundsOf_contains {m : JMap Position} {p : Position} (h : p ∈ jvalues m) :
    (boundsOf m).minX ≤ p.x ∧ p.x ≤ (boundsOf m).maxX ∧
    (boundsOf m).minY ≤ p.y ∧ p.y ≤ (boundsOf m).maxY :=
  ⟨qMinList_le (List.mem_map_of_mem (·.x) h),
   le_qMaxList (List.mem_map_of_mem (·.x) h),
   qMinList_le (List.mem_map_of_mem (·.y) h),
   le_qMaxList (List.mem_map_of_mem (·.y) h)⟩

theorem jget_none_jhas {α : Type} (m : JMap α) (k : String)
    (h : jget m k = none) : jhas m k = false := by
  induction m with
  | nil => rfl
  | cons p ps ih =>
    rw [jget] at h
    by_cases hp : p.1 = k
    · rw [if_pos hp] at h
      cases h
    · rw [if_neg hp] at h
      rw [jhas]
      simp [hp, ih h]

theorem jget_isSome_of_jhas {α : Type} {m : JMap α} {k : String}
    (h : jhas m k = true) : ∃ v, jget m k = some v := by
  cases hv : jget m k with
  | none =>
    rw [jget_none_jhas m k hv] at h
    cases h
  | some v => exact ⟨v, rfl⟩

theorem jhas_of_jget_some {α : Type} {m : JMap α} {k : String} {v : α}
    (h : jget m k = some v) : jhas m k = true := by
  cases hh : jhas m k
  · rw [jhas_false_jget m k hh] at h
    cases h
  · rfl

theorem jhas_jset_self {α : Type} (m : JMap α) (k : String) (v : α) :
    jhas (jset m k v) k = true :=
  jhas_of_jget_some (jget_jset_self m k v)

theorem jhas_jset_of {α : Type} {m : JMap α} {k : String} (k' : String) (v : α)
    (h : jhas m k = true) : jhas (jset m k' v) k = true := by
  by_cases hk : k = k'
  · rw [hk]
    exact jhas_jset_self m k' v
  · obtain ⟨w, hw⟩ := jget_isSome_of_jhas h
    exact jhas_of_jget_some (by rw [jget_jset_ne _ _ _ _ hk]; exact hw)

/-- A fold that `set`s every entry key keeps every key it started with and
gains every entry key. -/
theorem jhas_entries_fold {α β : Type} (f : String × α → β) :
    ∀ (l : List (String × α)) (acc : JMap β) (k : String),
    (jhas acc k = true ∨ ∃ p ∈ l, p.1 = k) →
    jhas (l.foldl (fun m p => jset m p.1 (f p)) acc) k = true := by
  intro l
  induction l with
  | nil =>
    intro acc k h
    rcases h with h | ⟨p, hp, -⟩
    · exact h
    · cases hp
  | cons p ps ih =>
    intro acc k h
    rw [List.foldl_cons]
    by_cases hpk : p.1 = k
    · exact ih _ k (Or.inl (by rw [← hpk]; exact jhas_jset_self acc p.1 _))
    · rcases h with h | ⟨p', hp', hk'⟩
      · exact ih _ k (Or.inl (jhas_jset_of p.1 _ h))
      · rcases List.mem_cons.mp hp' with rfl | hmem
        · exact absurd hk' hpk
        · exact ih _ k (Or.inr ⟨p', hmem, hk'⟩)

/-- The normalize step keeps every key of the position map. -/
theorem jhas_normalizePositions_of (positions : JMap Position)
    (strategy : LayoutStrategy) (k : String) (h : jhas positions k = true) :
    jhas (normalizePositions positions strategy).positions k = true := by
  rw [normalizePositions]
  have hmem : ∃ p ∈ positions, p.1 = k := by
    obtain ⟨v, hv⟩ := jget_isSome_of_jhas h
    exact ⟨(k, v), jget_mem _ _ _ hv, rfl⟩
  exact jhas_entries_fold _ positions [] k (Or.inr hmem)

theorem jhas_fanout_of (center : Position) (astep : ℚ) (cosF sinF : ℚ → ℚ) :
    ∀ (l : List InternalNode) (i : Nat) (pos : JMap Position) (k : String),
    jhas pos k = true → jhas (fanout center astep cosF sinF i l pos) k = true := by
  intro l
  induction l with
  | nil =>
    intro i pos k h
    exact h
  | cons n ns ih =>
    intro i pos k h
    exact ih (i + 1) _ k (jhas_jset_of n.id _ h)

theorem jhas_fanout_mem (center : Position) (astep : ℚ) (cosF sinF : ℚ → ℚ) :
    ∀ (l : List InternalNode) (i : Nat) (pos : JMap Position) (n : InternalNode),
    n ∈ l → jhas (fanout center astep cosF sinF i l pos) n.id = true := by
  intro l
  induction l with
  | nil =>
    intro i pos n hn
    cases hn
  | cons m ms ih =>
    intro i pos n hn
    rcases List.mem_cons.mp hn with rfl | hmem
    · exact jhas_fanout_of center astep cosF sinF ms (i + 1) _ n.id
        (jhas_jset_self pos n.id _)
    · exact ih (i + 1) _ n hmem

theorem jhas_placeGroup_of (ora : LayoutOracles) (centers : JMap Position)
    (pos : JMap Position) (gk : String) (l : List InternalNode) (k : String)
    (h : jhas pos k = true) : jhas (placeGroup ora centers pos gk l) k = true := by
  match l with
  | [] => exact h
  | [n] => exact jhas_jset_of n.id _ h
  | n :: m :: ms => exact jhas_fanout_of _ _ _ _ _ 0 pos k h

theorem jhas_placeGroup_mem (ora : LayoutOracles) (centers : JMap Position)
    (pos : JMap Position) (gk : String) (l : List InternalNode) (n : InternalNode)
    (hn : n ∈ l) : jhas (placeGroup ora centers pos gk l) n.id = true := by
  match l with
  | [] => cases hn
  | [m] =>
    rw [List.mem_singleton] at hn
    rw [hn]
    exact jhas_jset_self pos m.id _
  | a :: b :: ms => exact jhas_fanout_mem _ _ _ _ _ 0 pos n hn

/-- Every member of every group receives a position in the placement fold. -/
theorem jhas_layoutPositions (ora : LayoutOracles) (centers : JMap Position) :
    ∀ (G : List (String × List InternalNode)) (pos0 : JMap Position)
      (q : String × List InternalNode) (n : InternalNode),
    q ∈ G → n ∈ q.2 →
    jhas (G.foldl (fun pos q => placeGroup ora centers pos q.1 q.2) pos0) n.id = true := by
  intro G
  induction G with
  | nil =>
    intro pos0 q n hq
    cases hq
  | cons q' G ih =>
    intro pos0 q n hq hn
    rw [List.foldl_cons]
    rcases List.mem_cons.mp hq with rfl | hq'
    · apply foldl_preserve (fun pos => jhas pos n.id = true)
      · intro m p hm
        exact jhas_placeGroup_of ora centers m p.1 p.2 n.id hm
      · exact jhas_placeGroup_mem ora centers pos0 q.1 q.2 n hn
    · exact ih _ q n hq' hn

/-- Under duplicate-free ids and no stub/record key collisions, every node of
the map belongs to some group of the per-address grouping. -/
theorem mem_group_of_mem (nodes : JMap InternalNode)
    (Hnd : ((jvalues nodes).map (·.id)).Nodup)
    (Hcol : ∀ s ∈ jvalues nodes, s.record = none → ∀ f ∈ jvalues nodes, ∀ r,
      f.record = some r → s.id ≠ normalizeIp r.ip)
    (n : InternalNode) (hn : n ∈ jvalues nodes) :
    ∃ q ∈ ipGroupsOf nodes, n ∈ q.2 := by
  have hspec := ipGroupsOf_spec nodes Hnd Hcol
  cases hr : n.record with
  | some r =>
    have hnC : n ∈ recordCluster (jvalues nodes) (normalizeIp r.ip) :=
      mem_recordCluster.mpr ⟨hn, r, hr, rfl⟩
    have hne : recordCluster (jvalues nodes) (normalizeIp r.ip) ≠ [] :=
      List.ne_nil_of_mem hnC
    have hget := hspec (normalizeIp r.ip)
    rw [if_neg hne] at hget
    exact ⟨(normalizeIp r.ip, recordCluster (jvalues nodes) (normalizeIp r.ip)),
      jget_mem _ _ _ hget, hnC⟩
  | none =>
    have hcl : recordCluster (jvalues nodes) n.id = [] := by
      rw [List.eq_nil_iff_forall_not_mem]
      intro f hf
      obtain ⟨hfV, r', hr', hip⟩ := mem_recordCluster.mp hf
      exact Hcol n hn hr f hfV r' hr' hip.symm
    have hget := hspec n.id
    rw [if_pos hcl, stubAt] at hget
    cases hfind : List.find? (fun m => m.record.isNone && m.id == n.id)
        (jvalues nodes) with
    | none =>
      exfalso
      rw [List.find?_eq_none] at hfind
      exact (hfind n hn) (by simp [hr])
    | some s' =>
      rw [hfind, Option.map_some'] at hget
      have hpred := List.find?_some hfind
      rw [Bool.and_eq_true, beq_iff_eq] at hpred
      have hs'V : s' ∈ jvalues nodes := List.mem_of_find?_eq_some hfind
      have hss : s' = n := nodupIds_ne Hnd hs'V hn hpred.2
      rw [hss] at hget
      exact ⟨(n.id, [n]), jget_mem _ _ _ hget, List.mem_singleton_self n⟩

theorem applyLayout_bounds_eq (ora : LayoutOracles) (cfg : Config)
    (nodes : JMap InternalNode) (edges : JMap InternalEdge)
    (compositeWeights : JMap ℚ) (h : ¬ jsize nodes = 0) :
    (applyLayout ora cfg nodes edges compositeWeights).bounds =
      boundsOf (applyLayout ora cfg nodes edges compositeWeights).positions := by
  rw [applyLayout, if_neg h]
  rfl

/-- **C9.** Layout bounds containment: in the completed build, every node's
position lies inside the recorded bounds — the placement loop positions every
node of the map (given duplicate-free ids and no stub/record key collisions),
the normalize step keeps every key, and its second sweep records exactly the
min/max of the normalized positions, which therefore contain them all. -/
theorem C9_layout_bounds_containment (ora : LayoutOracles) (cfg : Config)
    (nodes : JMap InternalNode) (edges : JMap InternalEdge)
    (compositeWeights degree centrality : JMap ℚ) (hubThreshold : ℚ)
    (outgoingCounts incomingCounts : JMap Nat)
    (Hnd : ((jvalues nodes).map (·.id)).Nodup)
    (Hcol : ∀ s ∈ jvalues nodes, s.record = none → ∀ f ∈ jvalues nodes, ∀ r,
      f.record = some r → s.id ≠ normalizeIp r.ip) :
    ∀ a ∈ toAtlasNodes nodes (applyLayout ora cfg nodes edges compositeWeights).positions
        degree centrality hubThreshold outgoingCounts incomingCounts,
      (applyLayout ora cfg nodes edges compositeWeights).bounds.minX ≤ a.position.x ∧
      a.position.x ≤ (applyLayout ora cfg nodes edges compositeWeights).bounds.maxX ∧
      (applyLayout ora cfg nodes edges compositeWeights).bounds.minY ≤ a.position.y ∧
      a.position.y ≤ (applyLayout ora cfg nodes edges compositeWeights).bounds.maxY := by
  intro a ha
  rw [toAtlasNodes] at ha
  obtain ⟨n, hn, rfl⟩ := List.mem_map.mp ha
  have hnz : ¬ jsize nodes = 0 := by
    intro h0
    have : nodes = [] := List.length_eq_zero.mp h0
    rw [this] at hn
    cases hn
  obtain ⟨q, hq, hnq⟩ := mem_group_of_mem nodes Hnd Hcol n hn
  have hhas : jhas (applyLayout ora cfg nodes edges compositeWeights).positions
      n.id = true := by
    rw [applyLayout, if_neg hnz, applyLayoutCore]
    apply jhas_normalizePositions_of
    exact jhas_layoutPositions _ _ (ipGroupsOf nodes) [] q n hq hnq
  obtain ⟨p, hp⟩ := jget_isSome_of_jhas hhas
  have hpmem : p ∈ jvalues (applyLayout ora cfg nodes edges compositeWeights).positions :=
    List.mem_map_of_mem (·.2) (jget_mem _ _ _ hp)
  have hb := boundsOf_contains hpmem
  rw [← applyLayout_bounds_eq ora cfg nodes edges compositeWeights hnz] at hb
  dsimp only
  rw [hp]
  exact hb

/-- Trivial concrete oracles: constant RNG, identity simulation, constant
trigonometry. -/
def exOracles : LayoutOracles :=
  { rng := fun _ => 0
    sim := fun centers _ _ => centers
    cosF := fun _ => 1
    sinF := fun _ => 0
    piQ := 3 }

/-- C9 instantiated on the three-node cluster with the trivial oracles. -/
theorem C9_layout_bounds_containment_witness :
    ((jvalues exNodes246).map (·.id)).Nodup ∧
    (∀ a ∈ toAtlasNodes exNodes246
        (applyLayout exOracles exCfg exNodes246 [] []).positions [] [] 0 [] [],
      (applyLayout exOracles exCfg exNodes246 [] []).bounds.minX ≤ a.position.x ∧
      a.position.x ≤ (applyLayout exOracles exCfg exNodes246 [] []).bounds.maxX ∧
      (applyLayout exOracles exCfg exNodes246 [] []).bounds.minY ≤ a.position.y ∧
      a.position.y ≤ (applyLayout exOracles exCfg exNodes246 [] []).bounds.maxY) := by
  constructor
  · decide
  · have hcol : ∀ s ∈ jvalues exNodes246, s.record = none → ∀ f ∈ jvalues exNodes246,
        ∀ r, f.record = some r → s.id ≠ normalizeIp r.ip := by
      intro s hs hrec
      exfalso
      have hv : jvalues exNodes246 = [exN1, exN2, exN3] := rfl
      rw [hv, List.mem_cons, List.mem_cons, List.mem_singleton] at hs
      rcases hs with rfl | rfl | rfl <;> simp [exN1, exN2, exN3] at hrec
    exact C9_layout_bounds_containment exOracles exCfg exNodes246 [] [] [] [] 0 [] []
      (by decide) hcol

/-! ### C2: the three-node end-to-end scenario -/

structure BuildArtifacts where
  nodes : List AtlasNode
  edges : List AtlasEdge
  bounds : Bounds
  stats : AtlasStats
  hubThreshold : ℚ
  durationMs : Nat
  rawEdgeCount : Nat
  deriving DecidableEq, Repr

/-- `buildArtifacts` (lines 914–1009): graph assembly, the four enforcement
steps in order, degree metrics, cluster normalization, centrality, hub
threshold, composite weights, layout, and the final node/edge/stats
projections.  `durationMs` stands for `Date.now() - startedAt`;
`hubThreshold` is the value the source exposes in `meta`. -/
def buildArtifacts (ora : LayoutOracles) (cfg : Config) (rng : Nat → Nat)
    (peerResults : List PeerFetchResult) (durationMs : Nat) : BuildArtifacts :=
  let graph := buildGraph cfg rng peerResults
  let g := enforceAll cfg ⟨graph.nodes, graph.edges, graph.adjacency⟩
  let metrics := computeDegreeMetrics g.adjacency g.edges
  let normalizedDegree := normalizeClusterDegrees g.nodes metrics.1
  let centrality := computeCentrality normalizedDegree (jsize g.nodes)
  let hubThreshold := computeHubThreshold g.nodes centrality
  let compositeWeights := computeCompositeWeights g.nodes metrics.1 centrality
  let layout := applyLayout ora cfg g.nodes g.edges compositeWeights
  let atlasNodes := toAtlasNodes g.nodes layout.positions normalizedDegree centrality
    hubThreshold graph.outgoingCounts graph.incomingCounts
  let atlasEdges := (jvalues g.edges).map toAtlasEdge
  let stats := computeStats g.nodes g.edges graph.rawEdgeCount durationMs hubThreshold
    centrality cfg
  ⟨atlasNodes, atlasEdges, layout.bounds, stats, hubThreshold, durationMs,
    graph.rawEdgeCount⟩

/-- Three-node scenario of the spec's end-to-end property: `A`, `B`, `C` at
distinct addresses, each listing the other two as outgoing peers. -/
def exPeerA3 : PeerFetchResult := ⟨exRecA, ["10.0.0.2", "10.0.0.3"], [], none, none⟩

def exPeerB3 : PeerFetchResult := ⟨exRecB, ["10.0.0.1", "10.0.0.3"], [], none, none⟩

def exPeerC3 : PeerFetchResult := ⟨exRecC, ["10.0.0.1", "10.0.0.2"], [], none, none⟩

def exArtifacts : BuildArtifacts :=
  buildArtifacts exOracles exCfg (fun _ => 0) [exPeerA3, exPeerB3, exPeerC3] 0

/-- **C2, counterexample.**  In the three-node mutual-peer scenario with
external peers off and all caps unlimited, the pipeline does *not* produce
3 edges with raw degree 2, centrality 1 and hub threshold 1: the directed
edge keys keep both directions of every mutual report, giving 6 edges,
degree 4, centrality 2 and threshold 2. -/
theorem C2_counterexample :
    exArtifacts.stats.totalNodes = 3 ∧
    exArtifacts.stats.totalEdgesTrimmed ≠ 3 ∧
    exArtifacts.nodes.map (fun a => a.metrics.degree) ≠ [2, 2, 2] ∧
    exArtifacts.nodes.map (fun a => a.metrics.degreeCentrality) ≠ [1, 1, 1] ∧
    exArtifacts.hubThreshold ≠ 1 := by
  decide

/-- **C2** (amended).  End-to-end on 3 primary nodes `A`, `B`, `C` at distinct
addresses, each listing the other two, external peers off, caps unlimited:
the build has exactly 3 nodes and 6 edges (one per direction of each mutual
report), every node's raw degree is 4, every centrality is 2.0, the hub
threshold is 2.0, all three nodes are flagged as hubs, and the hub count
is 3. -/
theorem C2_end_to_end_directed :
    exArtifacts.stats.totalNodes = 3 ∧
    exArtifacts.stats.totalFluxNodes = 3 ∧
    exArtifacts.stats.totalEdgesRaw = 6 ∧
    exArtifacts.stats.totalEdgesTrimmed = 6 ∧
    exArtifacts.nodes.map (fun a => a.metrics.degree) = [4, 4, 4] ∧
    exArtifacts.nodes.map (fun a => a.metrics.degreeCentrality) = [2, 2, 2] ∧
    exArtifacts.hubThreshold = 2 ∧
    exArtifacts.nodes.map (fun a => a.isHub) = [true, true, true] ∧
    exArtifacts.stats.hubCount = 3 := by
  decide

end FluxAtlas
